import Mathlib

set_option maxHeartbeats 1000000

/-!
Verification of the IREE HAL fence runtime (`runtime/src/iree/hal/fence.c`)
and of the fence canonicalization patterns
(`compiler/src/iree/compiler/Dialect/HAL/IR/HALOpFolders.cpp`),
via a shallow embedding in Lean.

A fence is a capacity-bounded, deduplicated set of (semaphore, payload value)
pairs.  The occupied region of the two packed tail arrays is modelled as a
list of pairs in occupancy order; `count` is the length of that list.
Machine integers (`uint64_t` payloads, `uint16_t` counts) only ever flow
through comparisons and `max`, never through wrapping arithmetic, so they are
modelled as `Nat` with the explicit `UINT16_MAX = 65535` capacity guard kept
from the source.
-/

namespace IreeHal

/-- Semaphore identity: models the `iree_hal_semaphore_t*` pointer value. -/
abbrev Sem := Nat

/-- Status results of the fence operations modelled here.  `ok` is
`iree_ok_status()`; `resourceExhausted` is `IREE_STATUS_RESOURCE_EXHAUSTED`,
the only failure either `iree_hal_fence_create` or `iree_hal_fence_insert`
can produce. -/
inductive IreeStatus where
  | ok
  | resourceExhausted
deriving DecidableEq, Repr

/-- `iree_hal_fence_t`: reference count, fixed capacity, and the occupied
region of the packed semaphore/value tail arrays, kept as the list of
(semaphore, payload value) pairs in occupancy order. -/
structure Fence where
  refCount : Nat
  capacity : Nat
  entries : List (Sem × Nat)
deriving DecidableEq, Repr

/-- The `count` field: number of occupied slots. -/
def Fence.count (f : Fence) : Nat := f.entries.length

/-- `iree_hal_fence_semaphore_list`: for a null fence the view is empty
(count 0, null arrays); otherwise it is the occupied region of the fence. -/
def iree_hal_fence_semaphore_list (f : Option Fence) : List (Sem × Nat) :=
  f.elim [] Fence.entries

/-- `iree_hal_fence_create`: rejects `capacity >= UINT16_MAX` with a
resource-exhaustion error before any allocation; otherwise allocates a fence
with reference count initialized to 1 and count 0. -/
def iree_hal_fence_create (capacity : Nat) : Except IreeStatus Fence :=
  if 65535 ≤ capacity then .error .resourceExhausted
  else .ok { refCount := 1, capacity := capacity, entries := [] }

/-- The linear scan at the top of `iree_hal_fence_insert`: walks the occupied
region looking for an entry already holding `s` and, when found, replaces its
stored value with the max of both.  Returns `none` when `s` is absent. -/
def insert_scan : List (Sem × Nat) → Sem → Nat → Option (List (Sem × Nat))
  | [], _, _ => none
  | (s', v') :: rest, s, v =>
    if s' = s then some ((s', Nat.max v' v) :: rest)
    else (insert_scan rest s v).map (fun r => (s', v') :: r)

/-- `iree_hal_fence_insert`: merge-or-append.  Returns the status, the fence
after the call, and the list of semaphores retained during the call (the code
calls `iree_hal_semaphore_retain` exactly when it appends a new entry). -/
def iree_hal_fence_insert (f : Fence) (s : Sem) (v : Nat) :
    IreeStatus × Fence × List Sem :=
  match insert_scan f.entries s v with
  | some es => (.ok, { f with entries := es }, [])
  | none =>
    if f.capacity ≤ f.entries.length then (.resourceExhausted, f, [])
    else (.ok, { f with entries := f.entries ++ [(s, v)] }, [s])

theorem insert_scan_eq_none {es : List (Sem × Nat)} {s : Sem} {v : Nat}
    (h : s ∉ es.map Prod.fst) : insert_scan es s v = none := by
  induction es with
  | nil => rfl
  | cons e rest ih =>
    obtain ⟨s', v'⟩ := e
    simp only [List.map_cons, List.mem_cons] at h
    push_neg at h
    simp only [insert_scan]
    rw [if_neg (Ne.symm h.1), ih h.2, Option.map_none']

theorem insert_scan_found {pre post : List (Sem × Nat)} {s : Sem}
    {v₀ v : Nat} (h : s ∉ pre.map Prod.fst) :
    insert_scan (pre ++ (s, v₀) :: post) s v =
      some (pre ++ (s, Nat.max v₀ v) :: post) := by
  induction pre with
  | nil => simp [insert_scan]
  | cons e rest ih =>
    obtain ⟨s', v'⟩ := e
    simp only [List.map_cons, List.mem_cons] at h
    push_neg at h
    simp only [List.cons_append, insert_scan, List.append_eq]
    rw [if_neg (Ne.symm h.1), ih h.2, Option.map_some']

/-- **C1.** `iree_hal_fence_insert` trichotomy: if the semaphore is already
present in the occupied region (first occurrence at an explicit position),
the insert succeeds, replaces that entry's stored value with
`max(stored, value)`, leaves the count unchanged and retains nothing; if the
semaphore is absent and the fence is full (`count == capacity`), it fails
with a resource-exhaustion error and the fence is unchanged; if the semaphore
is absent and `count < capacity`, it appends the pair at index `count`,
retains the semaphore, and the count grows by exactly one. -/
theorem insert_cases (f : Fence) (s : Sem) (v : Nat) :
    (∀ pre v₀ post, f.entries = pre ++ (s, v₀) :: post →
      s ∉ pre.map Prod.fst →
      iree_hal_fence_insert f s v =
          (.ok, { f with entries := pre ++ (s, Nat.max v₀ v) :: post }, []) ∧
        ({ f with entries := pre ++ (s, Nat.max v₀ v) :: post} : Fence).count
          = f.count) ∧
    (s ∉ f.entries.map Prod.fst → f.count = f.capacity →
      iree_hal_fence_insert f s v = (.resourceExhausted, f, [])) ∧
    (s ∉ f.entries.map Prod.fst → f.count < f.capacity →
      iree_hal_fence_insert f s v =
          (.ok, { f with entries := f.entries ++ [(s, v)] }, [s]) ∧
        ({ f with entries := f.entries ++ [(s, v)] } : Fence).count
          = f.count + 1) := by
  refine ⟨?_, ?_, ?_⟩
  · intro pre v₀ post hsplit hpre
    constructor
    · unfold iree_hal_fence_insert
      rw [hsplit, insert_scan_found hpre]
    · simp [Fence.count, hsplit]
  · intro habs hfull
    unfold iree_hal_fence_insert
    rw [insert_scan_eq_none habs]
    simp only [Fence.count] at hfull
    rw [if_pos (le_of_eq hfull.symm)]
  · intro habs hroom
    simp only [Fence.count] at hroom
    constructor
    · unfold iree_hal_fence_insert
      rw [insert_scan_eq_none habs]
      rw [if_neg (not_le_of_lt hroom)]
    · simp [Fence.count]

/-- Witness for `insert_cases`: all three branches exercised on concrete
fences. -/
theorem insert_cases_witness :
    iree_hal_fence_insert ⟨1, 2, [(5, 4)]⟩ 5 9 = (.ok, ⟨1, 2, [(5, 9)]⟩, []) ∧
    iree_hal_fence_insert ⟨1, 1, [(5, 4)]⟩ 7 3 =
      (.resourceExhausted, ⟨1, 1, [(5, 4)]⟩, []) ∧
    iree_hal_fence_insert ⟨1, 2, [(5, 4)]⟩ 7 3 =
      (.ok, ⟨1, 2, [(5, 4), (7, 3)]⟩, [7]) := by
  refine ⟨?_, ?_, ?_⟩
  · have h := ((insert_cases ⟨1, 2, [(5, 4)]⟩ 5 9).1 [] 4 [] rfl (by simp)).1
    simpa using h
  · exact (insert_cases ⟨1, 1, [(5, 4)]⟩ 7 3).2.1 (by simp) rfl
  · have h := ((insert_cases ⟨1, 2, [(5, 4)]⟩ 7 3).2.2 (by simp) (by decide)).1
    simpa using h

/-- **C5 (amended).** `iree_hal_fence_create` succeeds — yielding a fence
with reference count one and count zero — exactly when
`capacity < UINT16_MAX = 65535`; for `capacity >= 65535` it returns a
resource-exhaustion error and allocates nothing.  (Note the strict bound:
the code rejects `capacity >= UINT16_MAX`, so the value 65535, which itself
fits in 16 bits, is rejected.) -/
theorem create_succeeds_iff_below_uint16_max (capacity : Nat) :
    (capacity < 65535 →
      iree_hal_fence_create capacity =
        .ok { refCount := 1, capacity := capacity, entries := [] }) ∧
    (65535 ≤ capacity →
      iree_hal_fence_create capacity = .error .resourceExhausted) := by
  constructor
  · intro h
    unfold iree_hal_fence_create
    rw [if_neg (not_le_of_lt h)]
  · intro h
    unfold iree_hal_fence_create
    rw [if_pos h]

/-- Witness for `create_succeeds_iff_below_uint16_max` at capacities 3 and
70000. -/
theorem create_succeeds_iff_below_uint16_max_witness :
    iree_hal_fence_create 3 = .ok { refCount := 1, capacity := 3, entries := [] } ∧
    iree_hal_fence_create 70000 = .error .resourceExhausted :=
  ⟨(create_succeeds_iff_below_uint16_max 3).1 (by decide),
   (create_succeeds_iff_below_uint16_max 70000).2 (by decide)⟩

/-- Counterexample to **C5** as stated: capacity 65535 fits in the 16-bit
count field (`65535 < 2 ^ 16`), yet `iree_hal_fence_create` rejects it with
a resource-exhaustion error, so "succeeds iff capacity fits in 16 bits" is
false at this input. -/
theorem create_rejects_uint16_max :
    iree_hal_fence_create 65535 = .error .resourceExhausted ∧
      65535 < 2 ^ 16 := by
  constructor
  · unfold iree_hal_fence_create
    rw [if_pos (le_refl _)]
  · decide

/-- The loop of `iree_hal_fence_signal`: signals each entry's semaphore to
its payload value in occupancy order, stopping at the first error.  The
external semaphore behavior is `sig : Sem → Nat → Option Nat` (`none` = the
signal succeeded, `some e` = it failed with error `e`).  Returns the first
error (if any) and the trace of signal calls actually performed, in order. -/
def signal_loop (sig : Sem → Nat → Option Nat) :
    List (Sem × Nat) → Option Nat × List (Sem × Nat)
  | [] => (none, [])
  | (s, v) :: rest =>
    match sig s v with
    | some e => (some e, [(s, v)])
    | none =>
      let r := signal_loop sig rest
      (r.1, (s, v) :: r.2)

/-- `iree_hal_fence_signal`: iterates the semaphore list view (empty for a
null fence). -/
def iree_hal_fence_signal (sig : Sem → Nat → Option Nat) (f : Option Fence) :
    Option Nat × List (Sem × Nat) :=
  signal_loop sig (iree_hal_fence_semaphore_list f)

theorem signal_loop_all_ok (sig : Sem → Nat → Option Nat)
    {l : List (Sem × Nat)} (h : ∀ p ∈ l, sig p.1 p.2 = none) :
    signal_loop sig l = (none, l) := by
  induction l with
  | nil => rfl
  | cons p rest ih =>
    obtain ⟨s, v⟩ := p
    have hsv : sig s v = none := h (s, v) (List.mem_cons_self _ _)
    simp only [signal_loop, hsv, ih (fun q hq => h q (List.mem_cons_of_mem _ hq))]

theorem signal_loop_first_error (sig : Sem → Nat → Option Nat)
    {pre post : List (Sem × Nat)} {s : Sem} {v e : Nat}
    (hpre : ∀ p ∈ pre, sig p.1 p.2 = none) (herr : sig s v = some e) :
    signal_loop sig (pre ++ (s, v) :: post) = (some e, pre ++ [(s, v)]) := by
  induction pre with
  | nil => simp only [List.nil_append, signal_loop, herr]
  | cons p rest ih =>
    obtain ⟨s', v'⟩ := p
    have hsv : sig s' v' = none := hpre (s', v') (List.mem_cons_self _ _)
    simp only [List.cons_append, signal_loop, hsv, List.append_eq,
      ih (fun q hq => hpre q (List.mem_cons_of_mem _ hq))]

/-- **C6.** `iree_hal_fence_signal` on a null fence succeeds without
performing any signal; on a non-null fence it signals each occupied entry's
semaphore to its recorded value in occupancy order; if a signal fails, it
stops immediately, returns exactly that first error, and no later semaphore
in the list is ever signaled. -/
theorem signal_order_and_first_error (sig : Sem → Nat → Option Nat) :
    iree_hal_fence_signal sig none = (none, []) ∧
    (∀ g : Fence, (∀ p ∈ g.entries, sig p.1 p.2 = none) →
      iree_hal_fence_signal sig (some g) = (none, g.entries)) ∧
    (∀ (g : Fence) pre s v post e, g.entries = pre ++ (s, v) :: post →
      (∀ p ∈ pre, sig p.1 p.2 = none) → sig s v = some e →
      iree_hal_fence_signal sig (some g) = (some e, pre ++ [(s, v)])) := by
  refine ⟨rfl, ?_, ?_⟩
  · intro g h
    exact signal_loop_all_ok sig h
  · intro g pre s v post e hsplit hpre herr
    show signal_loop sig g.entries = _
    rw [hsplit]
    exact signal_loop_first_error sig hpre herr

/-- Witness for `signal_order_and_first_error`: entries `[(0,5),(1,9)]` with
all signals succeeding yield `(none, [(0,5),(1,9)])`; with semaphore 0
failing with error 42, the result is `(some 42, [(0,5)])` and semaphore 1 is
never signaled. -/
theorem signal_order_and_first_error_witness :
    iree_hal_fence_signal (fun _ _ => none) (some ⟨1, 2, [(0, 5), (1, 9)]⟩) =
      (none, [(0, 5), (1, 9)]) ∧
    iree_hal_fence_signal (fun s _ => if s = 0 then some 42 else none)
        (some ⟨1, 2, [(0, 5), (1, 9)]⟩) = (some 42, [(0, 5)]) := by
  constructor
  · exact (signal_order_and_first_error (fun _ _ => none)).2.1
      ⟨1, 2, [(0, 5), (1, 9)]⟩ (by intro p _; rfl)
  · have h := (signal_order_and_first_error
      (fun s _ => if s = 0 then some 42 else none)).2.2
      ⟨1, 2, [(0, 5), (1, 9)]⟩ [] 0 5 [(1, 9)] 42 rfl (by simp) (by simp)
    simpa using h

/-- The loop of `iree_hal_fence_fail`: for each entry the failure status is
cloned (`true`) except for the last entry, which receives ownership of the
original status without a clone (`false`). -/
def fail_loop : List (Sem × Nat) → List (Sem × Bool)
  | [] => []
  | (s, _) :: rest =>
    if rest.isEmpty then [(s, false)]
    else (s, true) :: fail_loop rest

/-- Observable outcome of `iree_hal_fence_fail`: which semaphore received
which kind of status (`true` = a clone, `false` = the original transferred),
in delivery order, and whether the original status was discarded unconsumed
by the trailing `iree_status_ignore`. -/
structure FailTrace where
  delivered : List (Sem × Bool)
  droppedOriginal : Bool
deriving DecidableEq, Repr

/-- `iree_hal_fence_fail`: delivers the status across the semaphore list
view (empty for a null fence); the original status survives to the trailing
`iree_status_ignore` exactly when the list is empty. -/
def iree_hal_fence_fail (f : Option Fence) : FailTrace :=
  let list := iree_hal_fence_semaphore_list f
  { delivered := fail_loop list, droppedOriginal := list.isEmpty }

theorem fail_loop_last (pre : List (Sem × Nat)) (s : Sem) (v : Nat) :
    fail_loop (pre ++ [(s, v)]) =
      pre.map (fun p => (p.1, true)) ++ [(s, false)] := by
  induction pre with
  | nil => rfl
  | cons p rest ih =>
    obtain ⟨s', v'⟩ := p
    have hne : ((rest ++ [(s, v)]).isEmpty) = false := by simp
    simp only [List.cons_append, fail_loop, List.append_eq, hne,
      Bool.false_eq_true, if_false, List.map_cons, List.cons_append, ih]

/-- **C7.** `iree_hal_fence_fail` on a null fence or a fence with zero
occupied entries discards the status without delivering it to anyone; on a
fence with `N ≥ 1` entries it delivers a clone to each entry except the last
(exactly `N - 1` clones, in occupancy order) and transfers the original
status to the last entry's semaphore, so a single-entry fence incurs zero
clones. -/
theorem fail_clone_discipline (f : Option Fence) :
    ((f = none ∨ iree_hal_fence_semaphore_list f = []) →
      iree_hal_fence_fail f = ⟨[], true⟩) ∧
    (∀ g pre s v, f = some g → g.entries = pre ++ [(s, v)] →
      iree_hal_fence_fail f =
        ⟨pre.map (fun p => (p.1, true)) ++ [(s, false)], false⟩ ∧
      (pre.map (fun p => (p.1, true))).length = g.count - 1) := by
  constructor
  · rintro (rfl | hempty)
    · rfl
    · unfold iree_hal_fence_fail
      rw [hempty]
      rfl
  · rintro g pre s v rfl hsplit
    constructor
    · unfold iree_hal_fence_fail
      show FailTrace.mk (fail_loop g.entries) g.entries.isEmpty = _
      rw [hsplit, fail_loop_last]
      simp
    · simp [Fence.count, hsplit]

/-- Witness for `fail_clone_discipline`: a null fence drops the status; a
two-entry fence clones once (first entry) and transfers the original to the
last; a single-entry fence performs zero clones. -/
theorem fail_clone_discipline_witness :
    iree_hal_fence_fail none = ⟨[], true⟩ ∧
    iree_hal_fence_fail (some ⟨1, 2, [(3, 7), (4, 9)]⟩) =
      ⟨[(3, true), (4, false)], false⟩ ∧
    iree_hal_fence_fail (some ⟨1, 1, [(3, 7)]⟩) = ⟨[(3, false)], false⟩ := by
  refine ⟨?_, ?_, ?_⟩
  · exact (fail_clone_discipline none).1 (Or.inl rfl)
  · have h := ((fail_clone_discipline (some ⟨1, 2, [(3, 7), (4, 9)]⟩)).2
      ⟨1, 2, [(3, 7), (4, 9)]⟩ [(3, 7)] 4 9 rfl rfl).1
    simpa using h
  · have h := ((fail_clone_discipline (some ⟨1, 1, [(3, 7)]⟩)).2
      ⟨1, 1, [(3, 7)]⟩ [] 3 7 rfl rfl).1
    simpa using h

/-! ### Merge characterization: building a fence by repeated inserts -/

/-- Fold a list of elements into an accumulator, appending each element not
already present (first-occurrence order). -/
def addNew {α : Type} [DecidableEq α] (acc : List α) (l : List α) : List α :=
  l.foldl (fun acc x => if x ∈ acc then acc else acc ++ [x]) acc

/-- First-occurrence deduplication of a list. -/
def firstDedup {α : Type} [DecidableEq α] (l : List α) : List α := addNew [] l

theorem addNew_cons {α : Type} [DecidableEq α] (acc : List α) (x : α)
    (l : List α) :
    addNew acc (x :: l) = addNew (if x ∈ acc then acc else acc ++ [x]) l :=
  rfl

theorem length_le_addNew {α : Type} [DecidableEq α] (acc : List α)
    (l : List α) : acc.length ≤ (addNew acc l).length := by
  induction l generalizing acc with
  | nil => exact le_refl _
  | cons x rest ih =>
    rw [addNew_cons]
    refine le_trans ?_ (ih _)
    by_cases hx : x ∈ acc
    · rw [if_pos hx]
    · rw [if_neg hx]
      simp

theorem addNew_length_le {α : Type} [DecidableEq α] (acc : List α)
    (l : List α) : (addNew acc l).length ≤ acc.length + l.length := by
  induction l generalizing acc with
  | nil => simp [addNew]
  | cons x rest ih =>
    rw [addNew_cons]
    refine le_trans (ih _) ?_
    by_cases hx : x ∈ acc
    · rw [if_pos hx]
      simp only [List.length_cons]
      omega
    · rw [if_neg hx]
      simp only [List.length_append, List.length_cons, List.length_nil]
      omega

theorem mem_addNew {α : Type} [DecidableEq α] (acc : List α) (l : List α)
    (y : α) : y ∈ addNew acc l ↔ y ∈ acc ∨ y ∈ l := by
  induction l generalizing acc with
  | nil => simp [addNew]
  | cons x rest ih =>
    rw [addNew_cons, ih]
    by_cases hx : x ∈ acc
    · rw [if_pos hx]
      constructor
      · rintro (h | h) <;> simp [h]
      · rintro (h | h)
        · exact Or.inl h
        · rcases List.mem_cons.mp h with rfl | h
          · exact Or.inl hx
          · exact Or.inr h
    · rw [if_neg hx]
      simp only [List.mem_append, List.mem_singleton, List.mem_cons]
      tauto

theorem addNew_nodup {α : Type} [DecidableEq α] {acc : List α}
    (hacc : acc.Nodup) (l : List α) : (addNew acc l).Nodup := by
  induction l generalizing acc with
  | nil => exact hacc
  | cons x rest ih =>
    rw [addNew_cons]
    by_cases hx : x ∈ acc
    · rw [if_pos hx]; exact ih hacc
    · rw [if_neg hx]
      refine ih ?_
      simpa [List.nodup_append] using ⟨hacc, hx⟩

theorem firstDedup_nodup {α : Type} [DecidableEq α] (l : List α) :
    (firstDedup l).Nodup := addNew_nodup List.nodup_nil l

theorem mem_firstDedup {α : Type} [DecidableEq α] (l : List α) (y : α) :
    y ∈ firstDedup l ↔ y ∈ l := by
  rw [firstDedup, mem_addNew]
  simp

theorem firstDedup_length_le {α : Type} [DecidableEq α] (l : List α) :
    (firstDedup l).length ≤ l.length := by
  have h := addNew_length_le ([] : List α) l
  simpa [firstDedup] using h

theorem firstDedup_length_perm {α : Type} [DecidableEq α] {l l' : List α}
    (h : l.Perm l') : (firstDedup l).length = (firstDedup l').length := by
  have h1 : (firstDedup l).toFinset = (firstDedup l').toFinset := by
    ext y
    simp [List.mem_toFinset, mem_firstDedup, h.mem_iff]
  calc (firstDedup l).length = (firstDedup l).toFinset.card :=
        (List.toFinset_card_of_nodup (firstDedup_nodup l)).symm
    _ = (firstDedup l').toFinset.card := by rw [h1]
    _ = (firstDedup l').length :=
        List.toFinset_card_of_nodup (firstDedup_nodup l')

/-- The pure merge step that a *successful* insert performs on the occupied
region: replace the first entry holding `s` with the max, or append. -/
def merge_entry (es : List (Sem × Nat)) (s : Sem) (v : Nat) :
    List (Sem × Nat) :=
  match es with
  | [] => [(s, v)]
  | (s', v') :: rest =>
    if s' = s then (s', Nat.max v' v) :: rest
    else (s', v') :: merge_entry rest s v

/-- Folding `merge_entry` over an operation list. -/
def merge_fold (es : List (Sem × Nat)) (ops : List (Sem × Nat)) :
    List (Sem × Nat) :=
  ops.foldl (fun es p => merge_entry es p.1 p.2) es

/-- The value recorded for semaphore `s` in an occupied region: the payload
of its first entry. -/
def entry_lookup (es : List (Sem × Nat)) (s : Sem) : Option Nat :=
  (es.find? (fun p => p.1 == s)).map Prod.snd

/-- Merging a new payload into an optional current payload. -/
def mergeVal (acc : Option Nat) (v : Nat) : Option Nat :=
  match acc with
  | none => some v
  | some a => some (Nat.max a v)

/-- The maximum of all values inserted for `s` in `ops` (`none` if `s` was
never inserted): the spec-side description of the merged payload. -/
def max_inserted (ops : List (Sem × Nat)) (s : Sem) : Option Nat :=
  match (ops.filter (fun p => s == p.1)).map Prod.snd with
  | [] => none
  | v :: vs => some (vs.foldl Nat.max v)

theorem insert_scan_mem {es : List (Sem × Nat)} {s : Sem}
    (h : s ∈ es.map Prod.fst) (v : Nat) :
    insert_scan es s v = some (merge_entry es s v) := by
  induction es with
  | nil => simp at h
  | cons e rest ih =>
    obtain ⟨s', v'⟩ := e
    by_cases hs : s' = s
    · simp [insert_scan, merge_entry, hs]
    · simp only [List.map_cons, List.mem_cons] at h
      rcases h with rfl | h
      · exact absurd rfl hs
      · simp [insert_scan, merge_entry, hs, ih h]

theorem merge_entry_not_mem {es : List (Sem × Nat)} {s : Sem}
    (h : s ∉ es.map Prod.fst) (v : Nat) :
    merge_entry es s v = es ++ [(s, v)] := by
  induction es with
  | nil => rfl
  | cons e rest ih =>
    obtain ⟨s', v'⟩ := e
    simp only [List.map_cons, List.mem_cons] at h
    push_neg at h
    simp [merge_entry, Ne.symm h.1, ih h.2]

theorem merge_entry_keys (es : List (Sem × Nat)) (s : Sem) (v : Nat) :
    (merge_entry es s v).map Prod.fst =
      if s ∈ es.map Prod.fst then es.map Prod.fst
      else es.map Prod.fst ++ [s] := by
  induction es with
  | nil => simp [merge_entry]
  | cons e rest ih =>
    obtain ⟨s', v'⟩ := e
    by_cases hs : s' = s
    · subst hs
      simp [merge_entry]
    · simp only [merge_entry, if_neg hs, List.map_cons, ih, List.mem_cons]
      by_cases hmem : s ∈ rest.map Prod.fst
      · simp [hmem, Ne.symm hs]
      · simp [hmem, Ne.symm hs]

theorem entry_lookup_cons (a : Sem) (b : Nat) (rest : List (Sem × Nat))
    (t : Sem) :
    entry_lookup ((a, b) :: rest) t =
      if a = t then some b else entry_lookup rest t := by
  by_cases h : a = t
  · simp [entry_lookup, List.find?_cons_of_pos, h]
  · simp only [entry_lookup, if_neg h]
    rw [List.find?_cons_of_neg]
    simp [h]

theorem merge_entry_lookup (es : List (Sem × Nat)) (s : Sem) (v : Nat)
    (t : Sem) :
    entry_lookup (merge_entry es s v) t =
      if s = t then mergeVal (entry_lookup es s) v else entry_lookup es t := by
  induction es with
  | nil =>
    by_cases h : s = t
    · subst h
      simp [merge_entry, entry_lookup_cons, entry_lookup, mergeVal]
    · simp [merge_entry, entry_lookup_cons, h, entry_lookup, mergeVal]
  | cons e rest ih =>
    obtain ⟨s', v'⟩ := e
    by_cases hs : s' = s
    · subst hs
      by_cases ht : s' = t
      · subst ht
        simp [merge_entry, entry_lookup_cons, mergeVal]
      · simp [merge_entry, entry_lookup_cons, ht, mergeVal]
    · by_cases ht : s' = t
      · subst ht
        have hst : ¬ s = s' := fun h => hs h.symm
        simp [merge_entry, hs, entry_lookup_cons, hst, ih]
      · simp [merge_entry, hs, entry_lookup_cons, ht, ih]

theorem merge_fold_cons (es : List (Sem × Nat)) (s : Sem) (v : Nat)
    (ops : List (Sem × Nat)) :
    merge_fold es ((s, v) :: ops) = merge_fold (merge_entry es s v) ops := rfl

theorem merge_fold_keys (ops es : List (Sem × Nat)) :
    (merge_fold es ops).map Prod.fst =
      addNew (es.map Prod.fst) (ops.map Prod.fst) := by
  induction ops generalizing es with
  | nil => rfl
  | cons p rest ih =>
    obtain ⟨s, v⟩ := p
    rw [merge_fold_cons, ih, List.map_cons, addNew_cons, merge_entry_keys]

/-- Accumulator step: fold this over an operation list to obtain the payload
recorded for `t` after those operations. -/
def acc_step (t : Sem) (acc : Option Nat) (p : Sem × Nat) : Option Nat :=
  if p.1 = t then mergeVal acc p.2 else acc

theorem merge_fold_lookup (ops es : List (Sem × Nat)) (t : Sem) :
    entry_lookup (merge_fold es ops) t =
      ops.foldl (acc_step t) (entry_lookup es t) := by
  induction ops generalizing es with
  | nil => rfl
  | cons p rest ih =>
    obtain ⟨s, v⟩ := p
    rw [merge_fold_cons, ih, List.foldl_cons]
    by_cases hs : s = t
    · subst hs
      rw [merge_entry_lookup, if_pos rfl,
        show acc_step s (entry_lookup es s) (s, v) =
          mergeVal (entry_lookup es s) v from by simp [acc_step]]
    · rw [merge_entry_lookup, if_neg hs,
        show acc_step t (entry_lookup es t) (s, v) = entry_lookup es t from by
          simp [acc_step, hs]]

theorem lookup_foldl_some (ops : List (Sem × Nat)) (t : Sem) (a : Nat) :
    ops.foldl (acc_step t) (some a) =
      some (((ops.filter (fun p => t == p.1)).map Prod.snd).foldl Nat.max a) := by
  induction ops generalizing a with
  | nil => rfl
  | cons p rest ih =>
    obtain ⟨s, v⟩ := p
    by_cases hs : s = t
    · subst hs
      rw [List.foldl_cons,
        show acc_step s (some a) (s, v) = some (Nat.max a v) from by
          simp [acc_step, mergeVal], ih]
      simp [List.filter_cons]
    · have hne : (t == s) = false :=
        beq_eq_false_iff_ne.mpr (fun h' => hs h'.symm)
      rw [List.foldl_cons,
        show acc_step t (some a) (s, v) = some a from by simp [acc_step, hs],
        ih]
      simp [List.filter_cons, hne]

theorem lookup_foldl_none (ops : List (Sem × Nat)) (t : Sem) :
    ops.foldl (acc_step t) none = max_inserted ops t := by
  induction ops with
  | nil => rfl
  | cons p rest ih =>
    obtain ⟨s, v⟩ := p
    by_cases hs : s = t
    · subst hs
      rw [List.foldl_cons,
        show acc_step s none (s, v) = some v from by
          simp [acc_step, mergeVal],
        lookup_foldl_some]
      simp [max_inserted, List.filter_cons]
    · have hne : (t == s) = false :=
        beq_eq_false_iff_ne.mpr (fun h' => hs h'.symm)
      rw [List.foldl_cons,
        show acc_step t none (s, v) = none from by simp [acc_step, hs], ih]
      simp [max_inserted, List.filter_cons, hne]

/-- `max_inserted` is invariant under permutation of the insert sequence. -/
theorem max_inserted_perm {ops ops' : List (Sem × Nat)}
    (h : ops.Perm ops') (s : Sem) :
    max_inserted ops s = max_inserted ops' s := by
  have hperm : ((ops.filter (fun p => s == p.1)).map Prod.snd).Perm
      ((ops'.filter (fun p => s == p.1)).map Prod.snd) :=
    (h.filter _).map _
  unfold max_inserted
  rcases h1 : (ops.filter (fun p => s == p.1)).map Prod.snd with _ | ⟨v, vs⟩ <;>
    rcases h2 : (ops'.filter (fun p => s == p.1)).map Prod.snd with _ | ⟨v', vs'⟩ <;>
    rw [h1, h2] at hperm
  · rw [h1, h2]
  · exact absurd hperm.length_eq (by simp)
  · exact absurd hperm.length_eq (by simp)
  · rw [h1, h2]
    show some (vs.foldl Nat.max v) = some (vs'.foldl Nat.max v')
    haveI : RightCommutative Nat.max := ⟨fun b a₁ a₂ => by
      show max (max b a₁) a₂ = max (max b a₂) a₁
      rw [max_assoc, max_comm a₁, ← max_assoc]⟩
    have hv : vs.foldl Nat.max v = (v :: vs).foldl Nat.max 0 := by
      rw [List.foldl_cons, show Nat.max 0 v = v from Nat.max_eq_right (Nat.zero_le v)]
    have hv' : vs'.foldl Nat.max v' = (v' :: vs').foldl Nat.max 0 := by
      rw [List.foldl_cons, show Nat.max 0 v' = v' from Nat.max_eq_right (Nat.zero_le v')]
    rw [hv, hv', hperm.foldl_eq]

/-- The insert loop shared by `iree_hal_fence_join` (and used to model any
sequence of Insert calls): inserts each (semaphore, value) pair in order,
stopping at the first failure. -/
def insert_loop (f : Fence) : List (Sem × Nat) → IreeStatus × Fence
  | [] => (.ok, f)
  | (s, v) :: rest =>
    let r := iree_hal_fence_insert f s v
    match r.1 with
    | .ok => insert_loop r.2.1 rest
    | st => (st, r.2.1)

/-- Workhorse: when the number of distinct semaphores to be added fits the
capacity, the whole insert loop succeeds and the resulting occupied region is
the max-merge fold of the operations. -/
theorem insert_loop_ok (ops : List (Sem × Nat)) (f : Fence)
    (hcap : (addNew (f.entries.map Prod.fst) (ops.map Prod.fst)).length ≤
      f.capacity) :
    insert_loop f ops =
      (.ok, { f with entries := merge_fold f.entries ops }) := by
  induction ops generalizing f with
  | nil => rfl
  | cons p rest ih =>
    obtain ⟨s, v⟩ := p
    by_cases hs : s ∈ f.entries.map Prod.fst
    · have hins : iree_hal_fence_insert f s v =
          (.ok, { f with entries := merge_entry f.entries s v }, []) := by
        unfold iree_hal_fence_insert
        rw [insert_scan_mem hs]
      have hkeys : (merge_entry f.entries s v).map Prod.fst =
          f.entries.map Prod.fst := by
        rw [merge_entry_keys, if_pos hs]
      have hcap' : (addNew
          ((({ f with entries := merge_entry f.entries s v } : Fence)).entries.map
            Prod.fst) (rest.map Prod.fst)).length ≤
          ({ f with entries := merge_entry f.entries s v } : Fence).capacity := by
        simp only [hkeys]
        refine le_trans ?_ hcap
        rw [List.map_cons, addNew_cons, if_pos hs]
      show insert_loop _ _ = _
      rw [show insert_loop f ((s, v) :: rest) =
        insert_loop { f with entries := merge_entry f.entries s v } rest by
          simp [insert_loop, hins]]
      rw [ih _ hcap']
      rfl
    · have hlt : f.entries.length < f.capacity := by
        have h1 : (f.entries.map Prod.fst).length + 1 ≤
            (addNew (f.entries.map Prod.fst)
              (((s, v) :: rest).map Prod.fst)).length := by
          rw [List.map_cons, addNew_cons, if_neg hs]
          have := length_le_addNew (f.entries.map Prod.fst ++ [s])
            (rest.map Prod.fst)
          simpa using this
        have h2 := le_trans h1 hcap
        simpa using h2
      have hins : iree_hal_fence_insert f s v =
          (.ok, { f with entries := f.entries ++ [(s, v)] }, [s]) := by
        unfold iree_hal_fence_insert
        rw [insert_scan_eq_none hs, if_neg (not_le_of_lt hlt)]
      have hkeys : (f.entries ++ [(s, v)]).map Prod.fst =
          f.entries.map Prod.fst ++ [s] := by simp
      have hcap' : (addNew
          ((({ f with entries := f.entries ++ [(s, v)] } : Fence)).entries.map
            Prod.fst) (rest.map Prod.fst)).length ≤
          ({ f with entries := f.entries ++ [(s, v)] } : Fence).capacity := by
        simp only [hkeys]
        refine le_trans ?_ hcap
        rw [List.map_cons, addNew_cons, if_neg hs]
      show insert_loop _ _ = _
      rw [show insert_loop f ((s, v) :: rest) =
        insert_loop { f with entries := f.entries ++ [(s, v)] } rest by
          simp [insert_loop, hins]]
      rw [ih _ hcap']
      have hme : merge_entry f.entries s v = f.entries ++ [(s, v)] :=
        merge_entry_not_mem hs v
      simp [merge_fold_cons, hme]

/-- Create-then-insert: `iree_hal_fence_create` followed by a sequence of
`iree_hal_fence_insert` calls (stopping at the first failure). -/
def build_fence (capacity : Nat) (ops : List (Sem × Nat)) :
    Except IreeStatus Fence :=
  match iree_hal_fence_create capacity with
  | .error e => .error e
  | .ok f0 =>
    match insert_loop f0 ops with
    | (.ok, f) => .ok f
    | (st, _) => .error st

theorem build_fence_ok (cap : Nat) (ops : List (Sem × Nat))
    (hcap : cap < 65535)
    (hd : (firstDedup (ops.map Prod.fst)).length ≤ cap) :
    build_fence cap ops =
      .ok { refCount := 1, capacity := cap, entries := merge_fold [] ops } := by
  have hcr : iree_hal_fence_create cap =
      .ok { refCount := 1, capacity := cap, entries := [] } := by
    unfold iree_hal_fence_create
    rw [if_neg (not_le_of_lt hcap)]
  have hloop := insert_loop_ok ops
    { refCount := 1, capacity := cap, entries := [] } (by simpa [firstDedup] using hd)
  unfold build_fence
  rw [hcr]
  show (match insert_loop { refCount := 1, capacity := cap, entries := [] } ops with
    | (.ok, f) => Except.ok f
    | (st, _) => Except.error st) =
    Except.ok { refCount := 1, capacity := cap, entries := merge_fold [] ops }
  rw [hloop]

/-- **C2.** For a fence created with sufficient capacity, any sequence of
Insert calls succeeds and produces occupied entries whose semaphores are
exactly the distinct semaphores inserted, in order of first appearance, each
recorded with the maximum of all values ever inserted for it; and for any
permutation of the insert sequence the resulting semaphore-to-value mapping
is identical (only the occupancy order may differ). -/
theorem insert_sequence_merge (cap : Nat) (ops : List (Sem × Nat))
    (hcap : cap < 65535)
    (hd : (firstDedup (ops.map Prod.fst)).length ≤ cap) :
    ∃ f : Fence,
      build_fence cap ops = .ok f ∧
      f.entries.map Prod.fst = firstDedup (ops.map Prod.fst) ∧
      (∀ s, entry_lookup f.entries s = max_inserted ops s) ∧
      (∀ ops', ops.Perm ops' →
        ∃ f', build_fence cap ops' = .ok f' ∧
          f'.entries.map Prod.fst = firstDedup (ops'.map Prod.fst) ∧
          ∀ s, entry_lookup f'.entries s = entry_lookup f.entries s) := by
  refine ⟨_, build_fence_ok cap ops hcap hd, ?_, ?_, ?_⟩
  · show (merge_fold [] ops).map Prod.fst = _
    rw [merge_fold_keys]
    rfl
  · intro s
    show entry_lookup (merge_fold [] ops) s = _
    rw [merge_fold_lookup]
    exact lookup_foldl_none ops s
  · intro ops' hperm
    have hd' : (firstDedup (ops'.map Prod.fst)).length ≤ cap := by
      rw [← firstDedup_length_perm (hperm.map Prod.fst)]
      exact hd
    refine ⟨_, build_fence_ok cap ops' hcap hd', ?_, ?_⟩
    · show (merge_fold [] ops').map Prod.fst = _
      rw [merge_fold_keys]
      rfl
    · intro s
      show entry_lookup (merge_fold [] ops') s = entry_lookup (merge_fold [] ops) s
      rw [merge_fold_lookup, merge_fold_lookup]
      have h1 : List.foldl (acc_step s) (entry_lookup [] s) ops' =
          max_inserted ops' s := lookup_foldl_none ops' s
      have h2 : List.foldl (acc_step s) (entry_lookup [] s) ops =
          max_inserted ops s := lookup_foldl_none ops s
      rw [h1, h2]
      exact (max_inserted_perm hperm s).symm

/-- Witness for `insert_sequence_merge` on the sequence
`[(1,5),(2,3),(1,9)]` with capacity 2. -/
theorem insert_sequence_merge_witness :
    ∃ f : Fence,
      build_fence 2 [(1, 5), (2, 3), (1, 9)] = .ok f ∧
      f.entries.map Prod.fst = firstDedup ([(1, 5), (2, 3), (1, 9)].map Prod.fst) ∧
      (∀ s, entry_lookup f.entries s = max_inserted [(1, 5), (2, 3), (1, 9)] s) ∧
      (∀ ops', [(1, 5), (2, 3), (1, 9)].Perm ops' →
        ∃ f', build_fence 2 ops' = .ok f' ∧
          f'.entries.map Prod.fst = firstDedup (ops'.map Prod.fst) ∧
          ∀ s, entry_lookup f'.entries s = entry_lookup f.entries s) :=
  insert_sequence_merge 2 [(1, 5), (2, 3), (1, 9)] (by decide) (by decide)

/-! ### Join -/

/-- Observable outcome of `iree_hal_fence_join`: the returned status, the
`out_fence` out-parameter (set only on success, otherwise left null), and
the fences released internally during the call. -/
structure JoinOutcome where
  status : IreeStatus
  out_fence : Option Fence
  released : List Fence
deriving DecidableEq, Repr

/-- The tail of `iree_hal_fence_join`: on an ok status the built fence is
handed to the caller through `out_fence`; on any failure it is released and
the error propagated with `out_fence` still null. -/
def join_finish (r : IreeStatus × Fence) : JoinOutcome :=
  match r.1 with
  | .ok => ⟨.ok, some r.2, []⟩
  | .resourceExhausted => ⟨.resourceExhausted, none, [r.2]⟩

/-- The first loop of `iree_hal_fence_join`: the worst-case total timepoint
count, summing `count` over the non-null inputs. -/
def join_total (fences : List (Option Fence)) : Nat :=
  fences.foldl (fun acc f? => acc + f?.elim 0 Fence.count) 0

/-- The nested loops of `iree_hal_fence_join` produce the timepoints of all
inputs: inputs in order, each input's entries in its own occupancy order
(a null input contributes an empty semaphore list). -/
def join_entries (fences : List (Option Fence)) : List (Sem × Nat) :=
  fences.foldl (fun acc f? => acc ++ iree_hal_fence_semaphore_list f?) []

/-- `iree_hal_fence_join`: returns a null fence when the total count is
zero; otherwise creates a fence of capacity `join_total` and inserts every
input timepoint, releasing the partial fence on failure. -/
def iree_hal_fence_join (fences : List (Option Fence)) : JoinOutcome :=
  if join_total fences = 0 then ⟨.ok, none, []⟩
  else
    match iree_hal_fence_create (join_total fences) with
    | .error e => ⟨e, none, []⟩
    | .ok f0 => join_finish (insert_loop f0 (join_entries fences))

theorem count_fold_shift (fences : List (Option Fence)) (n : Nat) :
    fences.foldl (fun acc f? => acc + f?.elim 0 Fence.count) n =
      n + fences.foldl (fun acc f? => acc + f?.elim 0 Fence.count) 0 := by
  induction fences generalizing n with
  | nil => simp
  | cons f? rest ih =>
    rw [List.foldl_cons, List.foldl_cons, ih, ih (0 + f?.elim 0 Fence.count)]
    omega

theorem entries_fold_shift (fences : List (Option Fence))
    (acc : List (Sem × Nat)) :
    fences.foldl (fun acc f? => acc ++ iree_hal_fence_semaphore_list f?) acc =
      acc ++
        fences.foldl (fun acc f? => acc ++ iree_hal_fence_semaphore_list f?) [] := by
  induction fences generalizing acc with
  | nil => simp
  | cons f? rest ih =>
    rw [List.foldl_cons, List.foldl_cons, ih,
      ih ([] ++ iree_hal_fence_semaphore_list f?)]
    simp

/-- The worst-case capacity computed by join equals the total number of
timepoints it will insert. -/
theorem join_total_eq_length (fences : List (Option Fence)) :
    join_total fences = (join_entries fences).length := by
  induction fences with
  | nil => rfl
  | cons f? rest ih =>
    have h1 : join_total (f? :: rest) =
        f?.elim 0 Fence.count + join_total rest := by
      show List.foldl _ (0 + f?.elim 0 Fence.count) rest = _
      rw [count_fold_shift]
      have : join_total rest =
          rest.foldl (fun acc f? => acc + f?.elim 0 Fence.count) 0 := rfl
      omega
    have h2 : join_entries (f? :: rest) =
        iree_hal_fence_semaphore_list f? ++ join_entries rest := by
      show List.foldl _ ([] ++ iree_hal_fence_semaphore_list f?) rest = _
      rw [entries_fold_shift]
      rfl
    rw [h1, h2, List.length_append, ih]
    rcases f? with _ | g
    · rfl
    · rfl

/-- **C3 (amended).** Join of inputs whose total count is zero succeeds with
a null fence.  Otherwise, provided the total count is below the 65535 fence
capacity limit (the bound `iree_hal_fence_create` enforces), join returns a
fresh fence whose capacity is the total count and whose occupied entries are
the max-merge of all input entries: each distinct semaphore once, in order
of first appearance (inputs in input order, each input's entries in
occupancy order), with the maximum of its values across all inputs. -/
theorem join_null_or_merge (fences : List (Option Fence)) :
    (join_total fences = 0 → iree_hal_fence_join fences = ⟨.ok, none, []⟩) ∧
    (0 < join_total fences → join_total fences < 65535 →
      ∃ f : Fence,
        iree_hal_fence_join fences = ⟨.ok, some f, []⟩ ∧
        f.capacity = join_total fences ∧
        f.entries.map Prod.fst =
          firstDedup ((join_entries fences).map Prod.fst) ∧
        ∀ s, entry_lookup f.entries s = max_inserted (join_entries fences) s) := by
  constructor
  · intro h
    unfold iree_hal_fence_join
    rw [if_pos h]
  · intro hpos hcap
    unfold iree_hal_fence_join
    rw [if_neg (Nat.pos_iff_ne_zero.mp hpos)]
    have hcreate : iree_hal_fence_create (join_total fences) =
        .ok { refCount := 1, capacity := join_total fences, entries := [] } := by
      unfold iree_hal_fence_create
      rw [if_neg (not_le_of_lt hcap)]
    simp only [hcreate]
    have hd : (addNew (([] : List (Sem × Nat)).map Prod.fst)
        ((join_entries fences).map Prod.fst)).length ≤ join_total fences := by
      rw [join_total_eq_length]
      have := firstDedup_length_le ((join_entries fences).map Prod.fst)
      simpa [firstDedup] using this
    have hloop := insert_loop_ok (join_entries fences)
      { refCount := 1, capacity := join_total fences, entries := [] } hd
    rw [hloop]
    refine ⟨_, rfl, rfl, ?_, ?_⟩
    · show (merge_fold [] (join_entries fences)).map Prod.fst = _
      rw [merge_fold_keys]
      rfl
    · intro s
      show entry_lookup (merge_fold [] (join_entries fences)) s = _
      rw [merge_fold_lookup]
      exact lookup_foldl_none _ s

/-- Witness for `join_null_or_merge`: an all-null input list yields a null
fence; joining A = {s1:5} and B = {s1:3, s2:7} yields exactly
{s1:5, s2:7}. -/
theorem join_null_or_merge_witness :
    iree_hal_fence_join [none, none] = ⟨.ok, none, []⟩ ∧
    (∃ f : Fence,
      iree_hal_fence_join
          [some ⟨1, 1, [(1, 5)]⟩, some ⟨1, 2, [(1, 3), (2, 7)]⟩] =
        ⟨.ok, some f, []⟩ ∧
      f.capacity =
        join_total [some ⟨1, 1, [(1, 5)]⟩, some ⟨1, 2, [(1, 3), (2, 7)]⟩] ∧
      f.entries.map Prod.fst =
        firstDedup ((join_entries
          [some ⟨1, 1, [(1, 5)]⟩, some ⟨1, 2, [(1, 3), (2, 7)]⟩]).map Prod.fst) ∧
      ∀ s, entry_lookup f.entries s =
        max_inserted (join_entries
          [some ⟨1, 1, [(1, 5)]⟩, some ⟨1, 2, [(1, 3), (2, 7)]⟩]) s) :=
  ⟨(join_null_or_merge [none, none]).1 (by decide),
   (join_null_or_merge
      [some ⟨1, 1, [(1, 5)]⟩, some ⟨1, 2, [(1, 3), (2, 7)]⟩]).2
      (by decide) (by decide)⟩

/-- Counterexample to **C3** as stated: a single input fence holding 65535
timepoints has a nonzero total count, yet join does not return a fresh fence
of that capacity — `iree_hal_fence_create` rejects capacity 65535, so the
join fails with a resource-exhaustion error and returns no fence. -/
theorem join_counterexample_capacity_overflow :
    join_total [some ⟨1, 65535, List.replicate 65535 ((0 : Sem), 0)⟩] = 65535 ∧
    iree_hal_fence_join [some ⟨1, 65535, List.replicate 65535 ((0 : Sem), 0)⟩] =
      ⟨.resourceExhausted, none, []⟩ := by
  have h1 : join_total [some ⟨1, 65535, List.replicate 65535 ((0 : Sem), 0)⟩] =
      ([] ++ List.replicate 65535 ((0 : Sem), (0 : Nat))).length :=
    join_total_eq_length _
  have h2 : ([] ++ List.replicate 65535 ((0 : Sem), (0 : Nat))).length = 65535 := by
    rw [List.nil_append, List.length_replicate]
  have htot := h1.trans h2
  refine ⟨htot, ?_⟩
  unfold iree_hal_fence_join
  rw [htot, if_neg (by decide : ¬ (65535 = 0))]
  have hcreate : iree_hal_fence_create 65535 = .error .resourceExhausted := by
    unfold iree_hal_fence_create
    rw [if_pos (le_refl _)]
  simp only [hcreate]

/-- **C4.** No partially built fence ever escapes `iree_hal_fence_join`:
if the internal insert loop fails on the freshly built fence, the join
epilogue releases that fence, propagates the error, and leaves `out_fence`
null; and whenever `iree_hal_fence_join` returns a non-ok status, its
`out_fence` is null.  (With the capacity chosen by join the insert loop can
in fact never fail, so the reachable error is create's capacity check; the
epilogue handles any failure uniformly.) -/
theorem join_no_partial_on_error :
    (∀ (f : Fence) (es : List (Sem × Nat)),
      (insert_loop f es).1 = .resourceExhausted →
      join_finish (insert_loop f es) =
        ⟨.resourceExhausted, none, [(insert_loop f es).2]⟩) ∧
    (∀ fences : List (Option Fence),
      (iree_hal_fence_join fences).status ≠ .ok →
      (iree_hal_fence_join fences).out_fence = none) := by
  constructor
  · intro f es herr
    unfold join_finish
    rw [herr]
  · intro fences hne
    unfold iree_hal_fence_join at hne ⊢
    by_cases h0 : join_total fences = 0
    · rw [if_pos h0] at hne
      exact absurd rfl hne
    · rw [if_neg h0] at hne ⊢
      rcases hc : iree_hal_fence_create (join_total fences) with e | f0
      · simp only [hc]
      · simp only [hc] at hne ⊢
        unfold join_finish at hne ⊢
        rcases hst : (insert_loop f0 (join_entries fences)).1
        · rw [hst] at hne
          exact absurd rfl hne
        · rfl

/-- Witness for `join_no_partial_on_error`: a capacity-0 fence makes the
insert loop fail, and the epilogue releases the partial fence with a null
out-fence; a join whose total count is 65535 returns a non-ok status and a
null out-fence. -/
theorem join_no_partial_on_error_witness :
    join_finish (insert_loop ⟨1, 0, []⟩ [(0, 0)]) =
      ⟨.resourceExhausted, none, [(insert_loop ⟨1, 0, []⟩ [(0, 0)]).2]⟩ ∧
    (iree_hal_fence_join
      [some ⟨1, 65535, List.replicate 65535 ((0 : Sem), 0)⟩]).out_fence =
        none := by
  constructor
  · exact join_no_partial_on_error.1 ⟨1, 0, []⟩ [(0, 0)] (by decide)
  · refine join_no_partial_on_error.2 _ ?_
    have h1 : join_total [some ⟨1, 65535, List.replicate 65535 ((0 : Sem), 0)⟩] =
        ([] ++ List.replicate 65535 ((0 : Sem), (0 : Nat))).length :=
      join_total_eq_length _
    have h2 : ([] ++ List.replicate 65535 ((0 : Sem), (0 : Nat))).length
        = 65535 := by
      rw [List.nil_append, List.length_replicate]
    have htot := h1.trans h2
    unfold iree_hal_fence_join
    rw [htot, if_neg (by decide : ¬ (65535 = 0))]
    have hcreate : iree_hal_fence_create 65535 = .error .resourceExhausted := by
      unfold iree_hal_fence_create
      rw [if_pos (le_refl _)]
    simp only [hcreate]
    decide

/-! ### Fence algebra: `hal.fence.join` / `hal.fence.await` canonicalization -/

/-- A fence-typed operand of a `hal.fence.join` or `hal.fence.await` op:
either statically known to be the null constant (its defining op is
`util.null`) or some other fence-producing value, identified by its SSA
id. -/
inductive FOperand where
  | null
  | fence (id : Nat)
deriving DecidableEq, Repr

/-- One step of the `deduplicateFenceOperands` loop: drop an operand
statically known to be null, otherwise insert it `llvm::SetVector`-style
(keep the first occurrence only). -/
def reduce_step (acc : List FOperand) (o : FOperand) : List FOperand :=
  match o with
  | .null => acc
  | .fence i => if FOperand.fence i ∈ acc then acc else acc ++ [.fence i]

/-- The loop of `deduplicateFenceOperands`: null-drop and first-occurrence
deduplication over the whole operand list. -/
def reduce_operands (ops : List FOperand) : List FOperand :=
  ops.foldl reduce_step []

/-- `deduplicateFenceOperands`: returns the reduced operand list, or `none`
when nothing changed (the pattern then reports match failure). -/
def deduplicateFenceOperands (ops : List FOperand) : Option (List FOperand) :=
  let newOps := reduce_operands ops
  if newOps.length = ops.length then none else some newOps

theorem reduce_step_null (acc : List FOperand) :
    reduce_step acc .null = acc := rfl

theorem reduce_step_fence_mem {acc : List FOperand} {i : Nat}
    (h : FOperand.fence i ∈ acc) : reduce_step acc (.fence i) = acc := by
  simp [reduce_step, h]

theorem reduce_step_fence_not_mem {acc : List FOperand} {i : Nat}
    (h : FOperand.fence i ∉ acc) :
    reduce_step acc (.fence i) = acc ++ [.fence i] := by
  simp [reduce_step, h]

theorem reduce_go_length_le (ops : List FOperand) :
    ∀ acc : List FOperand,
      (ops.foldl reduce_step acc).length ≤ acc.length + ops.length := by
  induction ops with
  | nil => intro acc; simp
  | cons o rest ih =>
    intro acc
    rw [List.foldl_cons]
    rcases o with _ | i
    · rw [reduce_step_null]
      refine le_trans (ih acc) ?_
      simp only [List.length_cons]
      omega
    · by_cases hm : FOperand.fence i ∈ acc
      · rw [reduce_step_fence_mem hm]
        refine le_trans (ih acc) ?_
        simp only [List.length_cons]
        omega
      · rw [reduce_step_fence_not_mem hm]
        refine le_trans (ih _) ?_
        simp only [List.length_append, List.length_cons, List.length_nil]
        omega

theorem reduce_length_le (ops : List FOperand) :
    (reduce_operands ops).length ≤ ops.length := by
  have h := reduce_go_length_le ops []
  simpa [reduce_operands] using h

theorem dedup_some_lt {ops newOps : List FOperand}
    (h : deduplicateFenceOperands ops = some newOps) :
    newOps.length < ops.length := by
  unfold deduplicateFenceOperands at h
  by_cases hlen : (reduce_operands ops).length = ops.length
  · rw [if_pos hlen] at h
    cases h
  · rw [if_neg hlen] at h
    injection h with h'
    subst h'
    exact lt_of_le_of_ne (reduce_length_le ops) hlen

theorem reduce_go_split (ops : List FOperand) :
    ∀ acc : List FOperand, ∃ t, ops.foldl reduce_step acc = acc ++ t := by
  induction ops with
  | nil => intro acc; exact ⟨[], by simp⟩
  | cons o rest ih =>
    intro acc
    rw [List.foldl_cons]
    rcases o with _ | i
    · rw [reduce_step_null]
      exact ih acc
    · by_cases hm : FOperand.fence i ∈ acc
      · rw [reduce_step_fence_mem hm]
        exact ih acc
      · rw [reduce_step_fence_not_mem hm]
        obtain ⟨t, ht⟩ := ih (acc ++ [.fence i])
        exact ⟨[.fence i] ++ t, by rw [ht, List.append_assoc]⟩

/-- The reduced operand list is empty exactly when every operand is the
null constant. -/
theorem reduce_empty_iff (ops : List FOperand) :
    reduce_operands ops = [] ↔ ∀ o ∈ ops, o = .null := by
  induction ops with
  | nil => simp [reduce_operands]
  | cons o rest ih =>
    rcases o with _ | i
    · have h1 : reduce_operands (FOperand.null :: rest) =
          reduce_operands rest := rfl
      rw [h1, ih]
      simp
    · have h1 : reduce_operands (FOperand.fence i :: rest) =
          rest.foldl reduce_step ([] ++ [FOperand.fence i]) := by
        unfold reduce_operands
        rw [List.foldl_cons, reduce_step_fence_not_mem (by simp)]
      rw [h1]
      obtain ⟨t, ht⟩ := reduce_go_split rest ([] ++ [FOperand.fence i])
      rw [ht]
      constructor
      · intro hx
        exact absurd hx (by simp)
      · intro hall
        exact absurd (hall (.fence i) (by simp)) (by simp)

theorem reduce_go_inv (ops : List FOperand) :
    ∀ acc : List FOperand, acc.Nodup → (∀ o ∈ acc, o ≠ .null) →
      (ops.foldl reduce_step acc).Nodup ∧
        ∀ o ∈ ops.foldl reduce_step acc, o ≠ .null := by
  induction ops with
  | nil => intro acc h1 h2; exact ⟨h1, h2⟩
  | cons o rest ih =>
    intro acc h1 h2
    rw [List.foldl_cons]
    rcases o with _ | i
    · rw [reduce_step_null]
      exact ih acc h1 h2
    · by_cases hm : FOperand.fence i ∈ acc
      · rw [reduce_step_fence_mem hm]
        exact ih acc h1 h2
      · rw [reduce_step_fence_not_mem hm]
        refine ih (acc ++ [.fence i]) ?_ ?_
        · simpa [List.nodup_append] using ⟨h1, hm⟩
        · intro o ho
          rcases List.mem_append.mp ho with ho | ho
          · exact h2 o ho
          · rcases List.mem_singleton.mp ho with rfl
            simp

theorem reduce_fixed (l : List FOperand) (hnd : l.Nodup)
    (hnn : ∀ o ∈ l, o ≠ .null) :
    ∀ acc : List FOperand, (∀ o ∈ l, o ∉ acc) →
      l.foldl reduce_step acc = acc ++ l := by
  induction l with
  | nil => intro acc _; simp
  | cons o rest ih =>
    intro acc hdisj
    rw [List.foldl_cons]
    rcases o with _ | i
    · exact absurd rfl (hnn .null (by simp))
    · rw [reduce_step_fence_not_mem (hdisj (.fence i) (by simp))]
      have hnd' : rest.Nodup := (List.nodup_cons.mp hnd).2
      have hni : FOperand.fence i ∉ rest := (List.nodup_cons.mp hnd).1
      have hnn' : ∀ o ∈ rest, o ≠ .null := fun o ho =>
        hnn o (List.mem_cons_of_mem _ ho)
      have hdisj' : ∀ o ∈ rest, o ∉ acc ++ [FOperand.fence i] := by
        intro o ho
        rw [List.mem_append]
        rintro (hx | hx)
        · exact hdisj o (List.mem_cons_of_mem _ ho) hx
        · rcases List.mem_singleton.mp hx with rfl
          exact hni ho
      rw [ih hnd' hnn' (acc ++ [FOperand.fence i]) hdisj']
      simp

/-- Reducing is idempotent. -/
theorem reduce_idem (ops : List FOperand) :
    reduce_operands (reduce_operands ops) = reduce_operands ops := by
  obtain ⟨hnd, hnn⟩ := reduce_go_inv ops [] List.nodup_nil (by simp)
  have h := reduce_fixed (reduce_operands ops) hnd hnn [] (by simp)
  simpa [reduce_operands] using h

/-- Result of normalizing a `hal.fence.join` op under fixed-point rewriting
with `ElideEmptyFenceJoin` and `DeduplicateFenceJoinFences`. -/
inductive JoinNode where
  | joinOp (ops : List FOperand)
  | nullConst
deriving DecidableEq, Repr

/-- Result of normalizing a `hal.fence.await` op under fixed-point rewriting
with `ElideEmptyFenceAwait` and `DeduplicateFenceAwaitFences` (`okStatus` is
the `arith.constant 0 : i32` success status). -/
inductive AwaitNode where
  | awaitOp (ops : List FOperand)
  | okStatus
deriving DecidableEq, Repr

/-- Fixed-point application of the two join patterns: an empty operand list
is elided to the null constant (`ElideEmptyFenceJoin`); otherwise, if
`deduplicateFenceOperands` changed anything, the join is rebuilt with the
reduced operands (`DeduplicateFenceJoinFences`) and rewriting continues; if
no pattern matches, the op is in normal form. -/
def join_normalize (ops : List FOperand) : JoinNode :=
  if ops = [] then .nullConst
  else
    match hd : deduplicateFenceOperands ops with
    | none => .joinOp ops
    | some newOps => join_normalize newOps
termination_by ops.length
decreasing_by exact dedup_some_lt hd

/-- Fixed-point application of the two await patterns, mirroring
`join_normalize`. -/
def await_normalize (ops : List FOperand) : AwaitNode :=
  if ops = [] then .okStatus
  else
    match hd : deduplicateFenceOperands ops with
    | none => .awaitOp ops
    | some newOps => await_normalize newOps
termination_by ops.length
decreasing_by exact dedup_some_lt hd

theorem dedup_none_length {ops : List FOperand}
    (h : deduplicateFenceOperands ops = none) :
    (reduce_operands ops).length = ops.length := by
  unfold deduplicateFenceOperands at h
  by_cases hlen : (reduce_operands ops).length = ops.length
  · exact hlen
  · rw [if_neg hlen] at h
    cases h

theorem dedup_some_eq {ops newOps : List FOperand}
    (h : deduplicateFenceOperands ops = some newOps) :
    newOps = reduce_operands ops := by
  unfold deduplicateFenceOperands at h
  by_cases hlen : (reduce_operands ops).length = ops.length
  · rw [if_pos hlen] at h
    cases h
  · rw [if_neg hlen] at h
    injection h with h'
    exact h'.symm

theorem join_normalize_dedup_none {ops : List FOperand} (h0 : ops ≠ [])
    (h : deduplicateFenceOperands ops = none) :
    join_normalize ops = .joinOp ops := by
  unfold join_normalize
  rw [if_neg h0]
  split
  · rfl
  · rename_i newOps hh
    rw [h] at hh
    cases hh

theorem join_normalize_dedup_some {ops newOps : List FOperand}
    (h0 : ops ≠ []) (h : deduplicateFenceOperands ops = some newOps) :
    join_normalize ops = join_normalize newOps := by
  conv_lhs => unfold join_normalize
  rw [if_neg h0]
  split
  · rename_i hh
    rw [h] at hh
    cases hh
  · rename_i n hh
    rw [h] at hh
    injection hh with hh'
    rw [hh']

theorem await_normalize_dedup_none {ops : List FOperand} (h0 : ops ≠ [])
    (h : deduplicateFenceOperands ops = none) :
    await_normalize ops = .awaitOp ops := by
  unfold await_normalize
  rw [if_neg h0]
  split
  · rfl
  · rename_i newOps hh
    rw [h] at hh
    cases hh

theorem await_normalize_dedup_some {ops newOps : List FOperand}
    (h0 : ops ≠ []) (h : deduplicateFenceOperands ops = some newOps) :
    await_normalize ops = await_normalize newOps := by
  conv_lhs => unfold await_normalize
  rw [if_neg h0]
  split
  · rename_i hh
    rw [h] at hh
    cases hh
  · rename_i n hh
    rw [h] at hh
    injection hh with hh'
    rw [hh']

theorem join_normalize_null_iff (ops : List FOperand) :
    join_normalize ops = .nullConst ↔ reduce_operands ops = [] := by
  generalize hn : ops.length = n
  induction n using Nat.strong_induction_on generalizing ops with
  | _ n ih =>
    by_cases h0 : ops = []
    · subst h0
      simp [join_normalize, reduce_operands]
    · rcases hd : deduplicateFenceOperands ops with _ | newOps
      · rw [join_normalize_dedup_none h0 hd]
        constructor
        · intro hx
          cases hx
        · intro hred
          have hlen := dedup_none_length hd
          rw [hred] at hlen
          rw [List.length_nil] at hlen
          exact absurd (List.length_eq_zero.mp hlen.symm) h0
      · rw [join_normalize_dedup_some h0 hd]
        have hlt : newOps.length < n := hn ▸ dedup_some_lt hd
        rw [ih newOps.length hlt newOps rfl, dedup_some_eq hd, reduce_idem]

theorem await_normalize_ok_iff (ops : List FOperand) :
    await_normalize ops = .okStatus ↔ reduce_operands ops = [] := by
  generalize hn : ops.length = n
  induction n using Nat.strong_induction_on generalizing ops with
  | _ n ih =>
    by_cases h0 : ops = []
    · subst h0
      simp [await_normalize, reduce_operands]
    · rcases hd : deduplicateFenceOperands ops with _ | newOps
      · rw [await_normalize_dedup_none h0 hd]
        constructor
        · intro hx
          cases hx
        · intro hred
          have hlen := dedup_none_length hd
          rw [hred] at hlen
          rw [List.length_nil] at hlen
          exact absurd (List.length_eq_zero.mp hlen.symm) h0
      · rw [await_normalize_dedup_some h0 hd]
        have hlt : newOps.length < n := hn ▸ dedup_some_lt hd
        rw [ih newOps.length hlt newOps rfl, dedup_some_eq hd, reduce_idem]

/-- **C9.** Under fixed-point application of the canonicalization patterns,
a `hal.fence.join` is replaced by the null-handle constant — and a
`hal.fence.await` by the trivially-successful status constant — exactly when
the fully reduced operand list (after dropping statically-null operands and
deduplicating) is empty; and that reduced list is empty precisely when every
operand is the null constant, so an op whose literal operand list is
non-empty but all-null is still elided. -/
theorem elide_iff_reduced_empty :
    (∀ ops, join_normalize ops = .nullConst ↔ reduce_operands ops = []) ∧
    (∀ ops, await_normalize ops = .okStatus ↔ reduce_operands ops = []) ∧
    (∀ ops, reduce_operands ops = [] ↔ ∀ o ∈ ops, o = .null) :=
  ⟨join_normalize_null_iff, await_normalize_ok_iff, reduce_empty_iff⟩

/-- Witness for `elide_iff_reduced_empty`: a join and an await over the
syntactically non-empty operand list `[null, null]` are both elided. -/
theorem elide_iff_reduced_empty_witness :
    join_normalize [.null, .null] = .nullConst ∧
    await_normalize [.null, .null] = .okStatus :=
  ⟨(elide_iff_reduced_empty.1 [.null, .null]).mpr rfl,
   (elide_iff_reduced_empty.2.1 [.null, .null]).mpr rfl⟩

/-! ### Fence algebra: `hal.fence.create` timepoint deduplication -/

/-- A `min_values` operand of `hal.fence.create`: either an integer constant
(defined by an `arith.constant` op, foldable) or some other value known only
symbolically, identified by its SSA id. -/
inductive MinValue where
  | const (n : Nat)
  | sym (id : Nat)
deriving DecidableEq, Repr

/-- A value operand of the rebuilt create op: one of the original values, or
the `util.range.max` max-combining node over several of them. -/
inductive OutValue where
  | plain (v : MinValue)
  | rangeMax (vs : List MinValue)
deriving DecidableEq, Repr

/-- Whether a value is an integer constant. -/
def isConstV : MinValue → Bool
  | .const _ => true
  | .sym _ => false

/-- The numeric value of a constant (0 for symbolic values, unused). -/
def constVal : MinValue → Nat
  | .const n => n
  | .sym _ => 0

/-- Modelled from the spec: `rewriter.createOrFold<IREE::Util::RangeMaxOp>`
— the comment in `DeduplicateFenceCreateTimepoints` says "This will fold if
constant", i.e. when every operand is an integer constant the max-combining
node folds to the constant maximum of its operands; otherwise the
`util.range.max` node remains.  (The folder of `util.range.max` lives in the
Util dialect, outside the sources under verification.) -/
def rangeMaxFold (vs : List MinValue) : OutValue :=
  if vs.all isConstV then
    .plain (.const (vs.foldl (fun acc v => Nat.max acc (constVal v)) 0))
  else .rangeMax vs

/-- Building one rebuilt value operand from a semaphore's collected value
set (the body of the rebuild loop): a singleton set contributes its sole
value; a larger set contributes the `util.range.max` combiner over it,
folded when constant. -/
def combineOut (vs : List MinValue) : OutValue :=
  match vs with
  | [v] => .plain v
  | vs => rangeMaxFold vs

/-- One insertion into the `llvm::MapVector<Value, SetVector<Value>>` of
`DeduplicateFenceCreateTimepoints`: keys keep first-insertion order, and
each key's value set keeps the first occurrence of every distinct value. -/
def tpInsert : List (Nat × List MinValue) → Nat → MinValue →
    List (Nat × List MinValue)
  | [], s, v => [(s, [v])]
  | (s', vs) :: rest, s, v =>
    if s' = s then (s', if v ∈ vs then vs else vs ++ [v]) :: rest
    else (s', vs) :: tpInsert rest s v

/-- The collection loop of `DeduplicateFenceCreateTimepoints`: build the map
of all timepoints keyed on semaphore. -/
def collect_timepoints (tps : List (Nat × MinValue)) :
    List (Nat × List MinValue) :=
  tps.foldl (fun m p => tpInsert m p.1 p.2) []

/-- `DeduplicateFenceCreateTimepoints`: fails (`none`) on a create op with
just one timepoint (`getNumOperands() == 1 + 1`) or when nothing was
deduplicated; otherwise rebuilds the operand list from the map, taking the
sole value of a singleton set and a `util.range.max` combiner otherwise. -/
def DeduplicateFenceCreateTimepoints (tps : List (Nat × MinValue)) :
    Option (List (Nat × OutValue)) :=
  if tps.length = 1 then none
  else if (collect_timepoints tps).length = tps.length then none
  else some ((collect_timepoints tps).map (fun p => (p.1, combineOut p.2)))

/-- Lookup of a semaphore's value set in the timepoint map. -/
def tp_lookup (m : List (Nat × List MinValue)) (s : Nat) :
    Option (List MinValue) :=
  (m.find? (fun p => p.1 == s)).map Prod.snd

/-- Lookup of a semaphore's rebuilt value operand. -/
def out_lookup (out : List (Nat × OutValue)) (s : Nat) : Option OutValue :=
  (out.find? (fun p => p.1 == s)).map Prod.snd

/-- The distinct values listed for semaphore `s`, in order of first
appearance: the spec-side description of the per-semaphore value set. -/
def distinct_vals (tps : List (Nat × MinValue)) (s : Nat) : List MinValue :=
  firstDedup ((tps.filter (fun p => p.1 == s)).map Prod.snd)

theorem tpInsert_keys (m : List (Nat × List MinValue)) (s : Nat)
    (v : MinValue) :
    (tpInsert m s v).map Prod.fst =
      if s ∈ m.map Prod.fst then m.map Prod.fst else m.map Prod.fst ++ [s] := by
  induction m with
  | nil => simp [tpInsert]
  | cons e rest ih =>
    obtain ⟨s', vs⟩ := e
    by_cases hs : s' = s
    · subst hs
      simp [tpInsert]
    · simp only [tpInsert, if_neg hs, List.map_cons, ih, List.mem_cons]
      by_cases hmem : s ∈ rest.map Prod.fst
      · simp [hmem, Ne.symm hs]
      · simp [hmem, Ne.symm hs]

theorem tp_lookup_cons (a : Nat) (b : List MinValue)
    (rest : List (Nat × List MinValue)) (t : Nat) :
    tp_lookup ((a, b) :: rest) t =
      if a = t then some b else tp_lookup rest t := by
  by_cases h : a = t
  · simp [tp_lookup, List.find?_cons_of_pos, h]
  · simp only [tp_lookup, if_neg h]
    rw [List.find?_cons_of_neg]
    simp [h]

theorem out_lookup_cons (a : Nat) (b : OutValue)
    (rest : List (Nat × OutValue)) (t : Nat) :
    out_lookup ((a, b) :: rest) t =
      if a = t then some b else out_lookup rest t := by
  by_cases h : a = t
  · simp [out_lookup, List.find?_cons_of_pos, h]
  · simp only [out_lookup, if_neg h]
    rw [List.find?_cons_of_neg]
    simp [h]

theorem tpInsert_lookup (m : List (Nat × List MinValue)) (s : Nat)
    (v : MinValue) (t : Nat) :
    tp_lookup (tpInsert m s v) t =
      if s = t then
        some (match tp_lookup m s with
          | none => [v]
          | some vs => if v ∈ vs then vs else vs ++ [v])
      else tp_lookup m t := by
  induction m with
  | nil =>
    by_cases h : s = t
    · subst h
      simp [tpInsert, tp_lookup_cons, tp_lookup]
    · simp [tpInsert, tp_lookup_cons, h, tp_lookup]
  | cons e rest ih =>
    obtain ⟨s', vs⟩ := e
    by_cases hs : s' = s
    · subst hs
      by_cases ht : s' = t
      · subst ht
        simp [tpInsert, tp_lookup_cons]
      · simp [tpInsert, tp_lookup_cons, ht]
    · by_cases ht : s' = t
      · subst ht
        have hst : ¬ s = s' := fun h => hs h.symm
        simp [tpInsert, hs, tp_lookup_cons, hst, ih]
      · simp [tpInsert, hs, tp_lookup_cons, ht, ih]

theorem collect_keys_go (tps : List (Nat × MinValue)) :
    ∀ m, (tps.foldl (fun m p => tpInsert m p.1 p.2) m).map Prod.fst =
      addNew (m.map Prod.fst) (tps.map Prod.fst) := by
  induction tps with
  | nil => intro m; rfl
  | cons p rest ih =>
    intro m
    obtain ⟨s, v⟩ := p
    rw [List.foldl_cons, ih, List.map_cons, addNew_cons, tpInsert_keys]

theorem collect_keys (tps : List (Nat × MinValue)) :
    (collect_timepoints tps).map Prod.fst = firstDedup (tps.map Prod.fst) := by
  have h := collect_keys_go tps []
  simpa [collect_timepoints, firstDedup] using h

/-- Per-semaphore accumulator step for the value sets. -/
def vstep (t : Nat) (acc : Option (List MinValue)) (p : Nat × MinValue) :
    Option (List MinValue) :=
  if p.1 = t then
    some (match acc with
      | none => [p.2]
      | some vs => if p.2 ∈ vs then vs else vs ++ [p.2])
  else acc

theorem collect_lookup_go (tps : List (Nat × MinValue)) :
    ∀ (m : List (Nat × List MinValue)) (t : Nat),
      tp_lookup (tps.foldl (fun m p => tpInsert m p.1 p.2) m) t =
        tps.foldl (vstep t) (tp_lookup m t) := by
  induction tps with
  | nil => intro m t; rfl
  | cons p rest ih =>
    intro m t
    obtain ⟨s, v⟩ := p
    rw [List.foldl_cons, List.foldl_cons, ih]
    by_cases hs : s = t
    · subst hs
      rw [tpInsert_lookup, if_pos rfl,
        show vstep s (tp_lookup m s) (s, v) =
          some (match tp_lookup m s with
            | none => [v]
            | some vs => if v ∈ vs then vs else vs ++ [v]) from by
          simp [vstep]]
    · rw [tpInsert_lookup, if_neg hs,
        show vstep t (tp_lookup m t) (s, v) = tp_lookup m t from by
          simp [vstep, hs]]

theorem vstep_foldl_some (tps : List (Nat × MinValue)) (t : Nat) :
    ∀ vs0 : List MinValue,
      tps.foldl (vstep t) (some vs0) =
        some (addNew vs0 ((tps.filter (fun p => p.1 == t)).map Prod.snd)) := by
  induction tps with
  | nil => intro vs0; rfl
  | cons p rest ih =>
    intro vs0
    obtain ⟨s, v⟩ := p
    by_cases hs : s = t
    · subst hs
      rw [List.foldl_cons,
        show vstep s (some vs0) (s, v) =
          some (if v ∈ vs0 then vs0 else vs0 ++ [v]) from by simp [vstep],
        ih]
      have hf : ((s, v) :: rest).filter (fun p => p.1 == s) =
          (s, v) :: rest.filter (fun p => p.1 == s) := by
        rw [List.filter_cons]
        simp
      rw [hf, List.map_cons, addNew_cons]
    · have hne : ((s, v).1 == t) = false :=
        beq_eq_false_iff_ne.mpr hs
      rw [List.foldl_cons,
        show vstep t (some vs0) (s, v) = some vs0 from by simp [vstep, hs],
        ih]
      have hf : ((s, v) :: rest).filter (fun p => p.1 == t) =
          rest.filter (fun p => p.1 == t) := by
        rw [List.filter_cons, hne]
        rfl
      rw [hf]

theorem vstep_foldl_none (tps : List (Nat × MinValue)) (t : Nat) :
    tps.foldl (vstep t) none =
      match (tps.filter (fun p => p.1 == t)).map Prod.snd with
      | [] => none
      | v :: vs => some (addNew [v] vs) := by
  induction tps with
  | nil => rfl
  | cons p rest ih =>
    obtain ⟨s, v⟩ := p
    by_cases hs : s = t
    · subst hs
      rw [List.foldl_cons,
        show vstep s none (s, v) = some [v] from by simp [vstep],
        vstep_foldl_some]
      have hf : ((s, v) :: rest).filter (fun p => p.1 == s) =
          (s, v) :: rest.filter (fun p => p.1 == s) := by
        rw [List.filter_cons]
        simp
      rw [hf, List.map_cons]
    · have hne : ((s, v).1 == t) = false :=
        beq_eq_false_iff_ne.mpr hs
      rw [List.foldl_cons,
        show vstep t none (s, v) = none from by simp [vstep, hs], ih]
      have hf : ((s, v) :: rest).filter (fun p => p.1 == t) =
          rest.filter (fun p => p.1 == t) := by
        rw [List.filter_cons, hne]
        rfl
      rw [hf]

theorem firstDedup_cons {α : Type} [DecidableEq α] (v : α) (vs : List α) :
    firstDedup (v :: vs) = addNew [v] vs := by
  unfold firstDedup
  rw [addNew_cons, if_neg (List.not_mem_nil v), List.nil_append]

/-- For a semaphore that appears in the operand list, the collected value
set is exactly its distinct values in order of first appearance. -/
theorem collect_lookup (tps : List (Nat × MinValue)) (s : Nat)
    (hs : s ∈ tps.map Prod.fst) :
    tp_lookup (collect_timepoints tps) s = some (distinct_vals tps s) := by
  have h := collect_lookup_go tps [] s
  have hnil : tp_lookup [] s = none := rfl
  rw [hnil] at h
  unfold collect_timepoints
  rw [h, vstep_foldl_none]
  obtain ⟨p, hp, hps⟩ := List.mem_map.mp hs
  have hmem : p ∈ tps.filter (fun p => p.1 == s) := by
    rw [List.mem_filter]
    exact ⟨hp, by simp [hps]⟩
  have hvals : p.2 ∈ (tps.filter (fun p => p.1 == s)).map Prod.snd :=
    List.mem_map_of_mem _ hmem
  rcases hv : (tps.filter (fun p => p.1 == s)).map Prod.snd with _ | ⟨v, vs⟩
  · rw [hv] at hvals
    cases hvals
  · rw [distinct_vals, hv, firstDedup_cons]

theorem addNew_length_lt {α : Type} [DecidableEq α] (l : List α) :
    ∀ acc : List α, (¬ l.Nodup ∨ ∃ x ∈ l, x ∈ acc) →
      (addNew acc l).length < acc.length + l.length := by
  induction l with
  | nil =>
    intro acc h
    rcases h with h | ⟨x, hx, _⟩
    · exact absurd List.nodup_nil h
    · cases hx
  | cons x rest ih =>
    intro acc h
    rw [addNew_cons]
    by_cases hx : x ∈ acc
    · rw [if_pos hx]
      have := addNew_length_le acc rest
      simp only [List.length_cons]
      omega
    · rw [if_neg hx]
      have hd : ¬ rest.Nodup ∨ ∃ y ∈ rest, y ∈ acc ++ [x] := by
        rcases h with h | ⟨y, hy, hyacc⟩
        · rw [List.nodup_cons] at h
          push_neg at h
          by_cases hxr : x ∈ rest
          · exact Or.inr ⟨x, hxr, by simp⟩
          · exact Or.inl (h hxr)
        · rcases List.mem_cons.mp hy with rfl | hy
          · exact absurd hyacc hx
          · exact Or.inr ⟨y, hy, by simp [hyacc]⟩
      have := ih (acc ++ [x]) hd
      simp only [List.length_append, List.length_cons, List.length_nil] at this ⊢
      omega

theorem le_foldl_max (l : List Nat) : ∀ b, b ≤ l.foldl Nat.max b := by
  induction l with
  | nil => intro b; exact le_refl b
  | cons a rest ih =>
    intro b
    rw [List.foldl_cons]
    exact le_trans (Nat.le_max_left b a) (ih _)

theorem mem_le_foldl_max {l : List Nat} {x : Nat} (hx : x ∈ l) :
    ∀ b, x ≤ l.foldl Nat.max b := by
  induction l with
  | nil => cases hx
  | cons a rest ih =>
    intro b
    rw [List.foldl_cons]
    rcases List.mem_cons.mp hx with rfl | hx'
    · exact le_trans (Nat.le_max_right b x) (le_foldl_max rest _)
    · exact ih hx' _

theorem foldl_max_le_iff (l : List Nat) :
    ∀ b m, l.foldl Nat.max b ≤ m ↔ b ≤ m ∧ ∀ x ∈ l, x ≤ m := by
  induction l with
  | nil => intro b m; simp
  | cons a rest ih =>
    intro b m
    rw [List.foldl_cons, ih]
    constructor
    · rintro ⟨hba, hall⟩
      rcases Nat.max_le.mp hba with ⟨hb, ha⟩
      refine ⟨hb, ?_⟩
      intro x hx
      rcases List.mem_cons.mp hx with rfl | hx'
      · exact ha
      · exact hall x hx'
    · rintro ⟨hb, hall⟩
      refine ⟨Nat.max_le.mpr ⟨hb, hall a (by simp)⟩, ?_⟩
      intro x hx
      exact hall x (List.mem_cons_of_mem _ hx)

theorem foldl_max_eq_of_mem_iff {l₁ l₂ : List Nat}
    (h : ∀ x, x ∈ l₁ ↔ x ∈ l₂) :
    l₁.foldl Nat.max 0 = l₂.foldl Nat.max 0 := by
  refine le_antisymm ?_ ?_
  · rw [foldl_max_le_iff]
    exact ⟨Nat.zero_le _, fun x hx => mem_le_foldl_max ((h x).mp hx) 0⟩
  · rw [foldl_max_le_iff]
    exact ⟨Nat.zero_le _, fun x hx => mem_le_foldl_max ((h x).mpr hx) 0⟩

theorem foldl_max_of_all_eq {ns : List Nat} {n₀ : Nat} (hne : ns ≠ [])
    (hall : ∀ x ∈ ns, x = n₀) : ns.foldl Nat.max 0 = n₀ := by
  refine le_antisymm ?_ ?_
  · rw [foldl_max_le_iff]
    exact ⟨Nat.zero_le _, fun x hx => le_of_eq (hall x hx)⟩
  · rcases ns with _ | ⟨m, rest⟩
    · exact absurd rfl hne
    · have : m = n₀ := hall m (by simp)
      subst this
      exact mem_le_foldl_max (by simp) 0

theorem out_lookup_map (m : List (Nat × List MinValue))
    (g : List MinValue → OutValue) (s : Nat) :
    out_lookup (m.map (fun p => (p.1, g p.2))) s =
      (tp_lookup m s).map g := by
  induction m with
  | nil => rfl
  | cons e rest ih =>
    obtain ⟨a, b⟩ := e
    rw [List.map_cons]
    rw [out_lookup_cons, tp_lookup_cons]
    by_cases h : a = s
    · rw [if_pos h, if_pos h]
      rfl
    · rw [if_neg h, if_neg h, ih]

theorem vals_ne_nil {tps : List (Nat × MinValue)} {s : Nat}
    (hs : s ∈ tps.map Prod.fst) :
    (tps.filter (fun p => p.1 == s)).map Prod.snd ≠ [] := by
  obtain ⟨p, hp, hps⟩ := List.mem_map.mp hs
  have hmem : p ∈ tps.filter (fun p => p.1 == s) :=
    List.mem_filter.mpr ⟨hp, by simp [hps]⟩
  exact List.ne_nil_of_mem (List.mem_map_of_mem _ hmem)

/-- When every value listed for a semaphore is an integer constant, merging
its distinct values produces the constant maximum of all listed values. -/
theorem combineOut_const {vals : List MinValue} {ns : List Nat}
    (hvals : vals = ns.map MinValue.const) (hne : vals ≠ []) :
    combineOut (firstDedup vals) = .plain (.const (ns.foldl Nat.max 0)) := by
  subst hvals
  rcases hdv : firstDedup (ns.map MinValue.const) with _ | ⟨v, rest⟩
  · obtain ⟨x, hx⟩ := List.exists_mem_of_ne_nil _ hne
    have hx' := (mem_firstDedup (ns.map MinValue.const) x).mpr hx
    rw [hdv] at hx'
    cases hx'
  · rcases rest with _ | ⟨w, rest'⟩
    · have hvmem : v ∈ ns.map MinValue.const := by
        refine (mem_firstDedup _ v).mp ?_
        rw [hdv]
        simp
      obtain ⟨n₀, hn₀, rfl⟩ := List.mem_map.mp hvmem
      have hall : ∀ x ∈ ns, x = n₀ := by
        intro x hx
        have hmx : MinValue.const x ∈ firstDedup (ns.map MinValue.const) :=
          (mem_firstDedup _ _).mpr (List.mem_map_of_mem _ hx)
        rw [hdv] at hmx
        have h' := List.mem_singleton.mp hmx
        injection h'
      have hnne : ns ≠ [] := by
        intro h
        subst h
        exact hne rfl
      rw [foldl_max_of_all_eq hnne hall]
      rfl
    · have hsub : ∀ x ∈ v :: w :: rest', x ∈ ns.map MinValue.const := by
        intro x hx
        refine (mem_firstDedup _ x).mp ?_
        rw [hdv]
        exact hx
      have hc : combineOut (v :: w :: rest') = rangeMaxFold (v :: w :: rest') :=
        rfl
      rw [hc]
      have hallc : ((v :: w :: rest').all isConstV) = true := by
        rw [List.all_eq_true]
        intro x hx
        obtain ⟨n, _, rfl⟩ := List.mem_map.mp (hsub x hx)
        rfl
      unfold rangeMaxFold
      rw [if_pos hallc]
      have hfold : ((v :: w :: rest').foldl
          (fun acc u => Nat.max acc (constVal u)) 0) =
          ((v :: w :: rest').map constVal).foldl Nat.max 0 := by
        rw [List.foldl_map]
      have hiff : ∀ x, x ∈ (v :: w :: rest').map constVal ↔ x ∈ ns := by
        intro x
        constructor
        · intro hx
          obtain ⟨y, hy, rfl⟩ := List.mem_map.mp hx
          obtain ⟨n, hn, rfl⟩ := List.mem_map.mp (hsub y hy)
          exact hn
        · intro hx
          have hmx : MinValue.const x ∈ firstDedup (ns.map MinValue.const) :=
            (mem_firstDedup _ _).mpr (List.mem_map_of_mem _ hx)
          rw [hdv] at hmx
          exact List.mem_map.mpr ⟨MinValue.const x, hmx, rfl⟩
      rw [hfold, foldl_max_eq_of_mem_iff hiff]

/-- **C8.** On a create op whose operand list names some semaphore more than
once, `DeduplicateFenceCreateTimepoints` fires and produces an operand list
with each distinct semaphore exactly once, in order of first appearance;
each semaphore is paired with the merge of its distinct listed values (the
sole value when only one distinct value was listed, and the
`util.range.max` combining node — constant-folded when possible —
otherwise); in particular, when all values listed for a semaphore are
integer constants, it is paired with the constant maximum of all values
listed for it. -/
theorem create_dedup_rewrite (tps : List (Nat × MinValue))
    (hdup : ¬ (tps.map Prod.fst).Nodup) :
    ∃ out : List (Nat × OutValue),
      DeduplicateFenceCreateTimepoints tps = some out ∧
      out.map Prod.fst = firstDedup (tps.map Prod.fst) ∧
      (∀ s ∈ tps.map Prod.fst,
        out_lookup out s = some (combineOut (distinct_vals tps s))) ∧
      (∀ s ∈ tps.map Prod.fst, ∀ ns : List Nat,
        (tps.filter (fun p => p.1 == s)).map Prod.snd = ns.map MinValue.const →
        out_lookup out s = some (.plain (.const (ns.foldl Nat.max 0)))) := by
  have hne1 : tps.length ≠ 1 := by
    intro hlen
    obtain ⟨p, rfl⟩ := List.length_eq_one.mp hlen
    exact hdup (by simp)
  have hmlen : (collect_timepoints tps).length < tps.length := by
    have h1 : (collect_timepoints tps).length =
        (firstDedup (tps.map Prod.fst)).length := by
      rw [← collect_keys tps, List.length_map]
    have h2 : (addNew ([] : List Nat) (tps.map Prod.fst)).length <
        ([] : List Nat).length + (tps.map Prod.fst).length :=
      addNew_length_lt (tps.map Prod.fst) [] (Or.inl hdup)
    rw [h1]
    have h3 : (firstDedup (tps.map Prod.fst)).length =
        (addNew ([] : List Nat) (tps.map Prod.fst)).length := rfl
    rw [h3]
    calc (addNew ([] : List Nat) (tps.map Prod.fst)).length
        < ([] : List Nat).length + (tps.map Prod.fst).length := h2
      _ = tps.length := by simp
  refine ⟨(collect_timepoints tps).map (fun p => (p.1, combineOut p.2)),
    ?_, ?_, ?_, ?_⟩
  · unfold DeduplicateFenceCreateTimepoints
    rw [if_neg hne1, if_neg (ne_of_lt hmlen)]
  · rw [List.map_map]
    have hcomp : (Prod.fst ∘ fun p : Nat × List MinValue =>
        (p.1, combineOut p.2)) = Prod.fst := rfl
    rw [hcomp, collect_keys]
  · intro s hs
    rw [out_lookup_map, collect_lookup tps s hs]
    rfl
  · intro s hs ns hns
    rw [out_lookup_map, collect_lookup tps s hs]
    have hdv : distinct_vals tps s =
        firstDedup ((tps.filter (fun p => p.1 == s)).map Prod.snd) := rfl
    show some (combineOut (distinct_vals tps s)) = _
    rw [hdv, combineOut_const hns (vals_ne_nil hs)]

/-- Witness for `create_dedup_rewrite`: the operand list
`[(s1,3), (s1,7), (s2,2)]` rewrites, and concretely produces
`[(s1,7), (s2,2)]` — order of first appearance, max taken for `s1`. -/
theorem create_dedup_rewrite_witness :
    (∃ out : List (Nat × OutValue),
      DeduplicateFenceCreateTimepoints
          [(1, .const 3), (1, .const 7), (2, .const 2)] = some out ∧
      out.map Prod.fst =
        firstDedup ([(1, MinValue.const 3), (1, .const 7),
          (2, .const 2)].map Prod.fst) ∧
      (∀ s ∈ [(1, MinValue.const 3), (1, .const 7),
          (2, .const 2)].map Prod.fst,
        out_lookup out s = some (combineOut (distinct_vals
          [(1, .const 3), (1, .const 7), (2, .const 2)] s))) ∧
      (∀ s ∈ [(1, MinValue.const 3), (1, .const 7),
          (2, .const 2)].map Prod.fst, ∀ ns : List Nat,
        ([(1, MinValue.const 3), (1, .const 7), (2, .const 2)].filter
          (fun p => p.1 == s)).map Prod.snd = ns.map MinValue.const →
        out_lookup out s = some (.plain (.const (ns.foldl Nat.max 0))))) ∧
    DeduplicateFenceCreateTimepoints
        [(1, .const 3), (1, .const 7), (2, .const 2)] =
      some [(1, .plain (.const 7)), (2, .plain (.const 2))] :=
  ⟨create_dedup_rewrite [(1, .const 3), (1, .const 7), (2, .const 2)]
    (by decide), by decide⟩

/-! ### Heap-level model of join (frame property) -/

/-- A heap of fence objects: index `p` models the object behind the pointer
`p`; a freed slot is `none`.  Allocation appends, so existing pointers are
never invalidated. -/
abbrev Heap := List (Option Fence)

/-- Dereference a pointer: `none` for a dangling or freed pointer. -/
def heapGet (h : Heap) (p : Nat) : Option Fence := (h[p]?).getD none

/-- `iree_hal_fence_insert` called through a pointer: read the fence object,
perform the insert, store the updated object back at the same address.  Join
only ever calls this on the freshly allocated fence; on an invalid pointer
(unreachable from join) the heap is returned unchanged. -/
def heap_insert (h : Heap) (p : Nat) (s : Sem) (v : Nat) :
    IreeStatus × Heap :=
  match heapGet h p with
  | none => (.ok, h)
  | some f =>
    let r := iree_hal_fence_insert f s v
    (r.1, h.set p (some r.2.1))

/-- The inner insert loop of `iree_hal_fence_join`, writing through pointer
`p` and stopping at the first failure. -/
def heap_insert_loop (h : Heap) (p : Nat) :
    List (Sem × Nat) → IreeStatus × Heap
  | [] => (.ok, h)
  | (s, v) :: rest =>
    let r := heap_insert h p s v
    match r.1 with
    | .ok => heap_insert_loop r.2 p rest
    | st => (st, r.2)

/-- The outer loop of `iree_hal_fence_join`: for each input pointer, read
its semaphore list from the live heap and insert every entry into the fence
at `p`. -/
def heap_join_loop (h : Heap) (p : Nat) :
    List (Option Nat) → IreeStatus × Heap
  | [] => (.ok, h)
  | q? :: rest =>
    let r := heap_insert_loop h p
      (iree_hal_fence_semaphore_list (q?.bind (heapGet h)))
    match r.1 with
    | .ok => heap_join_loop r.2 p rest
    | st => (st, r.2)

/-- `iree_hal_fence_join` over the heap: computes the total count from the
non-null inputs, returns a null fence for zero, otherwise allocates a fresh
fence (at the fresh address `h.length`), inserts every input timepoint
through that pointer, and on failure releases the partial fence (frees its
slot) and returns a null out-fence. -/
def iree_hal_fence_join_heap (h : Heap) (inputs : List (Option Nat)) :
    IreeStatus × Option Nat × Heap :=
  let total := inputs.foldl
    (fun acc q? => acc + ((q?.bind (heapGet h)).elim 0 Fence.count)) 0
  if total = 0 then (.ok, none, h)
  else
    match iree_hal_fence_create total with
    | .error e => (e, none, h)
    | .ok f0 =>
      let p := h.length
      let r := heap_join_loop (h ++ [some f0]) p inputs
      match r.1 with
      | .ok => (.ok, some p, r.2)
      | st => (st, none, r.2.set p none)

theorem heap_insert_frame (h : Heap) (p : Nat) (s : Sem) (v : Nat) :
    (heap_insert h p s v).2.length = h.length ∧
      ∀ q, q ≠ p → heapGet (heap_insert h p s v).2 q = heapGet h q := by
  unfold heap_insert
  rcases heapGet h p with _ | f
  · exact ⟨rfl, fun q _ => rfl⟩
  · refine ⟨List.length_set h p _, ?_⟩
    intro q hq
    unfold heapGet
    rw [List.getElem?_set_ne (fun h => hq h.symm)]

theorem heap_insert_loop_cons (h : Heap) (p : Nat) (s : Sem) (v : Nat)
    (rest : List (Sem × Nat)) :
    heap_insert_loop h p ((s, v) :: rest) =
      match (heap_insert h p s v).1 with
      | .ok => heap_insert_loop (heap_insert h p s v).2 p rest
      | st => (st, (heap_insert h p s v).2) := rfl

theorem heap_insert_loop_frame (es : List (Sem × Nat)) :
    ∀ (h : Heap) (p : Nat),
      (heap_insert_loop h p es).2.length = h.length ∧
        ∀ q, q ≠ p → heapGet (heap_insert_loop h p es).2 q = heapGet h q := by
  induction es with
  | nil => intro h p; exact ⟨rfl, fun q _ => rfl⟩
  | cons e rest ih =>
    intro h p
    obtain ⟨s, v⟩ := e
    obtain ⟨hlen, hframe⟩ := heap_insert_frame h p s v
    rw [heap_insert_loop_cons]
    rcases (heap_insert h p s v).1
    · obtain ⟨hlen2, hframe2⟩ := ih (heap_insert h p s v).2 p
      exact ⟨hlen2.trans hlen,
        fun q hq => (hframe2 q hq).trans (hframe q hq)⟩
    · exact ⟨hlen, hframe⟩

theorem heap_join_loop_cons (h : Heap) (p : Nat) (q? : Option Nat)
    (rest : List (Option Nat)) :
    heap_join_loop h p (q? :: rest) =
      match (heap_insert_loop h p
          (iree_hal_fence_semaphore_list (q?.bind (heapGet h)))).1 with
      | .ok => heap_join_loop (heap_insert_loop h p
          (iree_hal_fence_semaphore_list (q?.bind (heapGet h)))).2 p rest
      | st => (st, (heap_insert_loop h p
          (iree_hal_fence_semaphore_list (q?.bind (heapGet h)))).2) := rfl

theorem heap_join_loop_frame (inputs : List (Option Nat)) :
    ∀ (h : Heap) (p : Nat),
      (heap_join_loop h p inputs).2.length = h.length ∧
        ∀ q, q ≠ p → heapGet (heap_join_loop h p inputs).2 q = heapGet h q := by
  induction inputs with
  | nil => intro h p; exact ⟨rfl, fun q _ => rfl⟩
  | cons q? rest ih =>
    intro h p
    obtain ⟨hlen, hframe⟩ := heap_insert_loop_frame
      (iree_hal_fence_semaphore_list (q?.bind (heapGet h))) h p
    rw [heap_join_loop_cons]
    rcases (heap_insert_loop h p
      (iree_hal_fence_semaphore_list (q?.bind (heapGet h)))).1
    · obtain ⟨hlen2, hframe2⟩ := ih _ p
      exact ⟨hlen2.trans hlen,
        fun q hq => (hframe2 q hq).trans (hframe q hq)⟩
    · exact ⟨hlen, hframe⟩

/-- **C10.** Join never modifies its input fences: every heap slot that
existed before the call — in particular every non-null input fence, with its
count, stored semaphore references and payload values — holds exactly the
same object after `iree_hal_fence_join_heap`, whether the join succeeds,
fails, or returns a null fence.  All writes target only the freshly
allocated fence at the fresh address `h.length`. -/
theorem join_heap_frame (h : Heap) (inputs : List (Option Nat)) (q : Nat)
    (hq : q < h.length) :
    heapGet (iree_hal_fence_join_heap h inputs).2.2 q = heapGet h q := by
  unfold iree_hal_fence_join_heap
  by_cases h0 : inputs.foldl
      (fun acc q? => acc + ((q?.bind (heapGet h)).elim 0 Fence.count)) 0 = 0
  · rw [if_pos h0]
  · rw [if_neg h0]
    rcases iree_hal_fence_create _ with e | f0
    · rfl
    · have hqp : q ≠ h.length := Nat.ne_of_lt hq
      have hbase : heapGet (h ++ [some f0]) q = heapGet h q := by
        unfold heapGet
        rw [List.getElem?_append_left hq]
      obtain ⟨hlen, hframe⟩ := heap_join_loop_frame inputs (h ++ [some f0])
        h.length
      show heapGet (match (heap_join_loop (h ++ [some f0]) h.length
          inputs).1 with
        | .ok => ((.ok : IreeStatus), some h.length,
            (heap_join_loop (h ++ [some f0]) h.length inputs).2)
        | st => (st, none,
            (heap_join_loop (h ++ [some f0]) h.length inputs).2.set
              h.length none)).2.2 q = heapGet h q
      rcases (heap_join_loop (h ++ [some f0]) h.length inputs).1
      · show heapGet (heap_join_loop (h ++ [some f0]) h.length inputs).2 q =
          heapGet h q
        rw [hframe q hqp, hbase]
      · show heapGet ((heap_join_loop (h ++ [some f0]) h.length
            inputs).2.set h.length none) q = heapGet h q
        have hstep : heapGet ((heap_join_loop (h ++ [some f0]) h.length
            inputs).2.set h.length none) q =
            heapGet (heap_join_loop (h ++ [some f0]) h.length inputs).2 q := by
          unfold heapGet
          rw [List.getElem?_set_ne (fun hx => hqp hx.symm)]
        rw [hstep, hframe q hqp, hbase]

/-- Witness for `join_heap_frame`: joining the single input fence at address
0 leaves that fence untouched. -/
theorem join_heap_frame_witness :
    heapGet (iree_hal_fence_join_heap [some ⟨1, 2, [(3, 5)]⟩]
        [some 0]).2.2 0 =
      heapGet [some ⟨1, 2, [(3, 5)]⟩] 0 :=
  join_heap_frame [some ⟨1, 2, [(3, 5)]⟩] [some 0] 0 (by decide)

end IreeHal
